import Mathlib

/-!
Verification of the `bit-board` library: a bit-packed 2D boolean grid with a
growable backend (`BitBoardDyn`, backed by a `BitVec`-style dynamic bit vector)
and a fixed-capacity backend (`BitBoardStatic<W>`, backed by `W` machine words).

The bit storage of both backends is modelled as `List Bool`.  Machine-integer
(`usize`) arithmetic is modelled on `Nat`, with the overflow checks of checked
(debug) builds: a `usize` subtraction that would underflow is a fatal error,
and an `assert!` failure or an out-of-bounds `BitSlice` write is a fatal error.
Fatal errors (panics) are modelled as `Except.error` carrying the memory state
at the point of the panic (or as `Option.none` for read-only operations), and
the recoverable `DimensionMismatch` error of `and`/`or` as `Except.error`.
-/

/-- Bit width of the machine word `usize` on the modelled 64-bit target
    (`usize::BITS`). -/
def usizeBits : Nat := 64

/-- The zero-payload recoverable error returned by `and`/`or` when the two
    operand boards have different shapes (`struct DimensionMismatch`). -/
inductive DimensionMismatch : Type where
  | mk : DimensionMismatch
deriving DecidableEq

/-- `BitSlice::set(index, value)`: writes one bit, panicking (`none`) when
    `index` is outside the bounds of the slice. -/
def bitsSet (bits : List Bool) (i : Nat) (v : Bool) : Option (List Bool) :=
  if i < bits.length then some (bits.set i v) else none

/-- `BitSlice::bitor_assign(rhs)` / `BitVec` `|`: element-wise OR over the
    overlapping prefix of the two bit sequences; the left operand keeps its
    length, and bits of the left operand past the right operand's length are
    unchanged. -/
def bitOrAssign (a b : List Bool) : List Bool :=
  (a.zipWith (fun x y => x || y) b) ++ a.drop b.length

/-- `BitSlice::bitand_assign(rhs)` / `BitVec` `&`: element-wise AND over the
    overlapping prefix, left operand keeps its length. -/
def bitAndAssign (a b : List Bool) : List Bool :=
  (a.zipWith (fun x y => x && y) b) ++ a.drop b.length

/-- Writing the bit `v` at each index of `idxs` in turn (out-of-range writes
    dropped); used to state what the `set_col`/`set_row` loops do to storage. -/
def setIdxsList (bits : List Bool) (idxs : List Nat) (v : Bool) : List Bool :=
  idxs.foldl (fun bs i => bs.set i v) bits

/-- The four primitives each storage backend supplies to the `BitBoard` trait:
    `n_rows()`, `n_cols()`, `board()` (read the bit sequence) and `board_mut()`
    (write the bit sequence back, modelled functionally as `withBoard`). -/
structure BoardOps (β : Type) where
  n_rows : β → Nat
  n_cols : β → Nat
  board : β → List Bool
  withBoard : β → List Bool → β

namespace BitBoard

variable {β : Type}

/-- `BitBoard::index_of(row, col)` (trait default method):
    `assert!(row <= self.n_rows() - 1)` then `assert!(col <= self.n_cols() - 1)`,
    then `row * n_cols + col`.  The `usize` subtraction `n_rows() - 1` is a
    fatal overflow when `n_rows = 0` (checked-arithmetic semantics), modelled
    as `none` like the assertion failures. -/
def index_of (O : BoardOps β) (b : β) (row col : Nat) : Option Nat :=
  if O.n_rows b = 0 then none
  else if row ≤ O.n_rows b - 1 then
    if O.n_cols b = 0 then none
    else if col ≤ O.n_cols b - 1 then some (row * O.n_cols b + col)
    else none
  else none

/-- `BitBoard::row_col_of(index)`: `(index / n_cols, index % n_cols)`; the
    division panics when `n_cols = 0`. -/
def row_col_of (O : BoardOps β) (b : β) (index : Nat) : Option (Nat × Nat) :=
  if O.n_cols b = 0 then none
  else some (index / O.n_cols b, index % O.n_cols b)

/-- `BitBoard::fill(value)`: `self.board_mut().fill(value)` — every bit of the
    backing slice (its full length, not just the logical prefix) is set. -/
def fill (O : BoardOps β) (b : β) (v : Bool) : β :=
  O.withBoard b (List.replicate (O.board b).length v)

/-- One raw write `self.board_mut().set(i, v)`: fatal when `i` is out of the
    storage bounds, carrying the untouched state. -/
def setIdx (O : BoardOps β) (b : β) (i : Nat) (v : Bool) : Except β β :=
  match bitsSet (O.board b) i v with
  | none => Except.error b
  | some bits => Except.ok (O.withBoard b bits)

/-- `BitBoard::set(row, col, value)`: computes `index_of` (fatal on bad
    coordinates) then writes that bit. -/
def set (O : BoardOps β) (b : β) (row col : Nat) (v : Bool) : Except β β :=
  match index_of O b row col with
  | none => Except.error b
  | some i => setIdx O b i v

/-- `BitBoard::get(row, col)`: computes `index_of` (fatal on bad coordinates,
    hence `none`), then reads the bit, defaulting to `false` when the computed
    index is outside the storage bounds
    (`*self.board().get(ind).as_deref().unwrap_or(&false)`). -/
def get (O : BoardOps β) (b : β) (row col : Nat) : Option Bool :=
  match index_of O b row col with
  | none => none
  | some i => some ((O.board b).getD i false)

/-- The raw write loop shared by `set_col` and `set_row`: for each counter `k`
    of `ks` in order, write bit `idxf b k` (recomputed from the current state,
    as the Rust loop body re-reads `self.n_cols()`), stopping with a fatal
    error at the first out-of-bounds index. -/
def setLoop (O : BoardOps β) (idxf : β → Nat → Nat) (v : Bool) :
    List Nat → β → Except β β
  | [], b => Except.ok b
  | k :: rest, b =>
    match setIdx O b (idxf b k) v with
    | Except.error b' => Except.error b'
    | Except.ok b' => setLoop O idxf v rest b'

/-- `BitBoard::set_col(col, value)`: `for r_idx in 0..n_rows { board_mut().set(r_idx * n_cols + col, value) }`.
    Note: no validation of `col` — the raw linear indices are written. -/
def set_col (O : BoardOps β) (b : β) (col : Nat) (v : Bool) : Except β β :=
  setLoop O (fun b' r => r * O.n_cols b' + col) v (List.range (O.n_rows b)) b

/-- `BitBoard::set_row(row, value)`: `for cidx in 0..n_cols { board_mut().set(row * n_cols + cidx, value) }`.
    Note: no validation of `row`. -/
def set_row (O : BoardOps β) (b : β) (row : Nat) (v : Bool) : Except β β :=
  setLoop O (fun b' c => row * O.n_cols b' + c) v (List.range (O.n_cols b)) b

/-- `BitBoard::set_cardinal_neighbors(row, col, value)`: conditionally sets the
    cells above, below, left and right.  The guards `row < n_rows() - 1` and
    `col < n_cols() - 1` evaluate a `usize` subtraction that is fatal when the
    dimension is `0` (checked semantics). -/
def set_cardinal_neighbors (O : BoardOps β) (b : β) (row col : Nat) (v : Bool) :
    Except β β :=
  (if 0 < row then set O b (row - 1) col v else Except.ok b) >>= fun b1 =>
  (if O.n_rows b1 = 0 then Except.error b1
   else if row < O.n_rows b1 - 1 then set O b1 (row + 1) col v
   else Except.ok b1) >>= fun b2 =>
  (if 0 < col then set O b2 row (col - 1) v else Except.ok b2) >>= fun b3 =>
  (if O.n_cols b3 = 0 then Except.error b3
   else if col < O.n_cols b3 - 1 then set O b3 row (col + 1) v
   else Except.ok b3)

/-- `BitBoard::set_diagonals(row, col, value)`: conditionally sets the four
    diagonal cells.  `&&` short-circuits, so `n_cols() - 1` in the
    above-right guard is only evaluated when `row > 0`, while the below-left
    and below-right guards always evaluate `n_rows() - 1` first. -/
def set_diagonals (O : BoardOps β) (b : β) (row col : Nat) (v : Bool) :
    Except β β :=
  (if 0 < row ∧ 0 < col then set O b (row - 1) (col - 1) v
   else Except.ok b) >>= fun b1 =>
  (if 0 < row then
     if O.n_cols b1 = 0 then Except.error b1
     else if col < O.n_cols b1 - 1 then set O b1 (row - 1) (col + 1) v
     else Except.ok b1
   else Except.ok b1) >>= fun b2 =>
  (if O.n_rows b2 = 0 then Except.error b2
   else if row < O.n_rows b2 - 1 ∧ 0 < col then set O b2 (row + 1) (col - 1) v
   else Except.ok b2) >>= fun b3 =>
  (if O.n_rows b3 = 0 then Except.error b3
   else if row < O.n_rows b3 - 1 then
     if O.n_cols b3 = 0 then Except.error b3
     else if col < O.n_cols b3 - 1 then set O b3 (row + 1) (col + 1) v
     else Except.ok b3
   else Except.ok b3)

/-- `BitBoard::set_all_neighbors(row, col, value)`: cardinal neighbors then
    diagonals. -/
def set_all_neighbors (O : BoardOps β) (b : β) (row col : Nat) (v : Bool) :
    Except β β :=
  set_cardinal_neighbors O b row col v >>= fun b1 =>
  set_diagonals O b1 row col v

end BitBoard

/-- `struct BitBoardDyn`: growable backend, a dynamically sized bit vector
    plus the shape. -/
structure BitBoardDyn : Type where
  board : List Bool
  n_rows : Nat
  n_cols : Nat
deriving DecidableEq

/-- The four backend primitives of `BitBoardDyn` (its inherent methods are
    textually the same bodies as the trait defaults, so they are modelled by
    the shared trait functions at this instance). -/
def dynOps : BoardOps BitBoardDyn where
  n_rows := fun b => b.n_rows
  n_cols := fun b => b.n_cols
  board := fun b => b.board
  withBoard := fun b bits => { b with board := bits }

/-- `BitBoardDyn::new(n_rows, n_cols)`: `bitvec![0; n_rows * n_cols]`. -/
def BitBoardDyn.new (n_rows n_cols : Nat) : BitBoardDyn :=
  { board := List.replicate (n_rows * n_cols) false
    n_rows := n_rows
    n_cols := n_cols }

/-- `BitBoardDyn::or`: shape check, then a fresh board whose bit vector is
    `self.board.clone() | other.board.clone()`. -/
def BitBoardDyn.or (a b : BitBoardDyn) : Except DimensionMismatch BitBoardDyn :=
  if a.n_rows ≠ b.n_rows ∨ a.n_cols ≠ b.n_cols then Except.error DimensionMismatch.mk
  else Except.ok
    { board := bitOrAssign a.board b.board
      n_rows := a.n_rows
      n_cols := a.n_cols }

/-- `BitBoardDyn::and`: shape check, then a fresh board whose bit vector is
    `self.board.clone() & other.board.clone()`. -/
def BitBoardDyn.and (a b : BitBoardDyn) : Except DimensionMismatch BitBoardDyn :=
  if a.n_rows ≠ b.n_rows ∨ a.n_cols ≠ b.n_cols then Except.error DimensionMismatch.mk
  else Except.ok
    { board := bitAndAssign a.board b.board
      n_rows := a.n_rows
      n_cols := a.n_cols }

/-- `struct BitBoardStatic<const W: usize>`: fixed backend, a `BitArray` over
    `W` machine words (so `W * usizeBits` bits of storage) plus the shape.
    The storage-length invariant is carried by the constructor and theorems. -/
structure BitBoardStatic (W : Nat) : Type where
  board : List Bool
  n_rows : Nat
  n_cols : Nat
deriving DecidableEq

/-- The four backend primitives of `BitBoardStatic<W>` (`impl BitBoard for
    BitBoardStatic<W>`): `board()`/`board_mut()` expose the whole `W * 64`-bit
    backing slice. -/
def staticOps (W : Nat) : BoardOps (BitBoardStatic W) where
  n_rows := fun b => b.n_rows
  n_cols := fun b => b.n_cols
  board := fun b => b.board
  withBoard := fun b bits => { b with board := bits }

/-- `BitBoardStatic::<W>::new(n_rows, n_cols)`:
    `assert!(n_rows * n_cols <= W * usize::BITS)` (fatal when exceeded,
    modelled as `none`), then an all-zero `BitArray::default()`. -/
def BitBoardStatic.new (W n_rows n_cols : Nat) : Option (BitBoardStatic W) :=
  if n_rows * n_cols ≤ W * usizeBits then
    some { board := List.replicate (W * usizeBits) false
           n_rows := n_rows
           n_cols := n_cols }
  else none

/-- `BitBoardStatic::or`: shape check, then `result = *self;
    result.board_mut().bitor_assign(other.board())` over the whole backing
    slice. -/
def BitBoardStatic.or {W : Nat} (a b : BitBoardStatic W) :
    Except DimensionMismatch (BitBoardStatic W) :=
  if a.n_rows ≠ b.n_rows ∨ a.n_cols ≠ b.n_cols then Except.error DimensionMismatch.mk
  else Except.ok { a with board := bitOrAssign a.board b.board }

/-- `BitBoardStatic::and`: shape check, then `result = *self;
    result.board_mut().bitand_assign(other.board())`. -/
def BitBoardStatic.and {W : Nat} (a b : BitBoardStatic W) :
    Except DimensionMismatch (BitBoardStatic W) :=
  if a.n_rows ≠ b.n_rows ∨ a.n_cols ≠ b.n_cols then Except.error DimensionMismatch.mk
  else Except.ok { a with board := bitAndAssign a.board b.board }

/-- The backend primitives of both concrete backends are plain field reads and
    a plain field write; these four laws record that. -/
structure LawfulOps {β : Type} (O : BoardOps β) : Prop where
  n_rows_withBoard : ∀ b bits, O.n_rows (O.withBoard b bits) = O.n_rows b
  n_cols_withBoard : ∀ b bits, O.n_cols (O.withBoard b bits) = O.n_cols b
  board_withBoard : ∀ b bits, O.board (O.withBoard b bits) = bits
  withBoard_withBoard : ∀ b bits bits',
    O.withBoard (O.withBoard b bits) bits' = O.withBoard b bits'
  withBoard_board : ∀ b, O.withBoard b (O.board b) = b

theorem dynLawful : LawfulOps dynOps :=
  ⟨fun _ _ => rfl, fun _ _ => rfl, fun _ _ => rfl, fun _ _ _ => rfl, fun _ => rfl⟩

theorem staticLawful (W : Nat) : LawfulOps (staticOps W) :=
  ⟨fun _ _ => rfl, fun _ _ => rfl, fun _ _ => rfl, fun _ _ _ => rfl, fun _ => rfl⟩

theorem getD_set (bits : List Bool) (i j : Nat) (v : Bool) :
    (bits.set i v).getD j false =
      if i = j ∧ j < bits.length then v else bits.getD j false := by
  rw [List.getD_eq_getElem?_getD, List.getD_eq_getElem?_getD, List.getElem?_set]
  by_cases h : i = j
  · subst h
    by_cases hl : i < bits.length
    · simp [hl]
    · simp [hl, List.getElem?_eq_none (by omega : bits.length ≤ i)]
  · simp [h]

theorem getD_replicate (n j : Nat) (a : Bool) :
    (List.replicate n a).getD j false = if j < n then a else false := by
  rw [List.getD_eq_getElem?_getD, List.getElem?_replicate]
  split <;> rfl

theorem setIdxsList_nil (bits : List Bool) (v : Bool) :
    setIdxsList bits [] v = bits := rfl

theorem setIdxsList_cons (bits : List Bool) (i : Nat) (rest : List Nat) (v : Bool) :
    setIdxsList bits (i :: rest) v = setIdxsList (bits.set i v) rest v := rfl

theorem setIdxsList_length :
    ∀ (idxs : List Nat) (bits : List Bool) (v : Bool),
      (setIdxsList bits idxs v).length = bits.length := by
  intro idxs
  induction idxs with
  | nil => intro bits v; rfl
  | cons i rest ih =>
    intro bits v
    rw [setIdxsList_cons, ih, List.length_set]

theorem getD_setIdxsList :
    ∀ (idxs : List Nat) (bits : List Bool) (j : Nat) (v : Bool),
      (setIdxsList bits idxs v).getD j false =
        if j ∈ idxs ∧ j < bits.length then v else bits.getD j false := by
  intro idxs
  induction idxs with
  | nil =>
    intro bits j v
    simp [setIdxsList_nil]
  | cons i rest ih =>
    intro bits j v
    rw [setIdxsList_cons, ih, List.length_set, getD_set]
    by_cases hj : j < bits.length
    · by_cases hm : j ∈ rest
      · simp [hm, hj]
      · by_cases hij : i = j <;> simp [hm, hj, hij, eq_comm]
    · simp [hj]

theorem rc_lt {r c nr nc : Nat} (hr : r < nr) (hc : c < nc) :
    r * nc + c < nr * nc := by
  have h1 : r * nc + c < (r + 1) * nc := by
    have : (r + 1) * nc = r * nc + nc := by ring
    omega
  have h2 : (r + 1) * nc ≤ nr * nc := Nat.mul_le_mul_right nc hr
  omega

theorem rc_inj {nc r c a b : Nat} (hc : c < nc) (hb : b < nc)
    (h : r * nc + c = a * nc + b) : r = a ∧ c = b := by
  have hnc : 0 < nc := by omega
  have h1 : (r * nc + c) / nc = r := by
    rw [Nat.mul_comm r nc, Nat.mul_add_div hnc, Nat.div_eq_of_lt hc]
    omega
  have h2 : (a * nc + b) / nc = a := by
    rw [Nat.mul_comm a nc, Nat.mul_add_div hnc, Nat.div_eq_of_lt hb]
    omega
  have h3 : (r * nc + c) % nc = c := by
    rw [Nat.mul_comm r nc, Nat.mul_add_mod, Nat.mod_eq_of_lt hc]
  have h4 : (a * nc + b) % nc = b := by
    rw [Nat.mul_comm a nc, Nat.mul_add_mod, Nat.mod_eq_of_lt hb]
  constructor
  · rw [← h1, ← h2, h]
  · rw [← h3, ← h4, h]

namespace BitBoard

variable {β : Type}

theorem index_of_eq (O : BoardOps β) (b : β) (row col : Nat) :
    index_of O b row col =
      if row < O.n_rows b ∧ col < O.n_cols b then
        some (row * O.n_cols b + col)
      else none := by
  unfold index_of
  split_ifs <;> first | rfl | omega

theorem get_eq (O : BoardOps β) (b : β) (row col : Nat) :
    get O b row col =
      if row < O.n_rows b ∧ col < O.n_cols b then
        some ((O.board b).getD (row * O.n_cols b + col) false)
      else none := by
  unfold get
  rw [index_of_eq]
  by_cases h : row < O.n_rows b ∧ col < O.n_cols b
  · simp [h]
  · simp [h]

theorem setIdx_ok (O : BoardOps β) (b : β) {i : Nat} (v : Bool)
    (hi : i < (O.board b).length) :
    setIdx O b i v = Except.ok (O.withBoard b ((O.board b).set i v)) := by
  unfold setIdx bitsSet
  simp [hi]

theorem setIdx_err (O : BoardOps β) (b : β) {i : Nat} (v : Bool)
    (hi : ¬ i < (O.board b).length) :
    setIdx O b i v = Except.error b := by
  unfold setIdx bitsSet
  simp [hi]

theorem set_ok (O : BoardOps β) (b : β) {row col : Nat} (v : Bool)
    (hr : row < O.n_rows b) (hc : col < O.n_cols b)
    (hl : row * O.n_cols b + col < (O.board b).length) :
    set O b row col v =
      Except.ok (O.withBoard b ((O.board b).set (row * O.n_cols b + col) v)) := by
  unfold set
  rw [index_of_eq]
  simp only [hr, hc, and_self, if_true]
  exact setIdx_ok O b v hl

theorem setLoop_cons_ok (O : BoardOps β) (idxf : β → Nat → Nat) (v : Bool)
    (k : Nat) (rest : List Nat) (b b₁ : β)
    (h : setIdx O b (idxf b k) v = Except.ok b₁) :
    setLoop O idxf v (k :: rest) b = setLoop O idxf v rest b₁ := by
  have heq : setLoop O idxf v (k :: rest) b =
      match setIdx O b (idxf b k) v with
      | Except.error b' => Except.error b'
      | Except.ok b' => setLoop O idxf v rest b' := rfl
  rw [heq, h]

theorem setLoop_cons_err (O : BoardOps β) (idxf : β → Nat → Nat) (v : Bool)
    (k : Nat) (rest : List Nat) (b b₁ : β)
    (h : setIdx O b (idxf b k) v = Except.error b₁) :
    setLoop O idxf v (k :: rest) b = Except.error b₁ := by
  have heq : setLoop O idxf v (k :: rest) b =
      match setIdx O b (idxf b k) v with
      | Except.error b' => Except.error b'
      | Except.ok b' => setLoop O idxf v rest b' := rfl
  rw [heq, h]

theorem setLoop_ok (O : BoardOps β) (hO : LawfulOps O) (nc : Nat)
    (f : Nat → Nat) (idxf : β → Nat → Nat) (v : Bool)
    (hf : ∀ b k, O.n_cols b = nc → idxf b k = f k) :
    ∀ (ks : List Nat) (b : β), O.n_cols b = nc →
      (∀ k ∈ ks, f k < (O.board b).length) →
      setLoop O idxf v ks b =
        Except.ok (O.withBoard b (setIdxsList (O.board b) (ks.map f) v)) := by
  intro ks
  induction ks with
  | nil =>
    intro b hnc _
    rw [List.map_nil, setIdxsList_nil, hO.withBoard_board]
    rfl
  | cons k rest ih =>
    intro b hnc hlt
    have hk : f k < (O.board b).length := hlt k (by simp)
    have hstep : setIdx O b (idxf b k) v =
        Except.ok (O.withBoard b ((O.board b).set (f k) v)) := by
      rw [hf b k hnc]
      exact setIdx_ok O b v hk
    rw [setLoop_cons_ok O idxf v k rest b _ hstep]
    rw [ih (O.withBoard b ((O.board b).set (f k) v))
      (by rw [hO.n_cols_withBoard]; exact hnc)
      (by
        intro k' hk'
        rw [hO.board_withBoard, List.length_set]
        exact hlt k' (by simp [hk']))]
    rw [hO.board_withBoard, hO.withBoard_withBoard, List.map_cons, setIdxsList_cons]

theorem setLoop_err (O : BoardOps β) (hO : LawfulOps O) (nc : Nat)
    (f : Nat → Nat) (idxf : β → Nat → Nat) (v : Bool)
    (hf : ∀ b k, O.n_cols b = nc → idxf b k = f k) :
    ∀ (ks₁ : List Nat) (k₀ : Nat) (ks₂ : List Nat) (b : β), O.n_cols b = nc →
      (∀ k ∈ ks₁, f k < (O.board b).length) →
      ¬ f k₀ < (O.board b).length →
      setLoop O idxf v (ks₁ ++ k₀ :: ks₂) b =
        Except.error (O.withBoard b (setIdxsList (O.board b) (ks₁.map f) v)) := by
  intro ks₁
  induction ks₁ with
  | nil =>
    intro k₀ ks₂ b hnc _ hbad
    have hstep : setIdx O b (idxf b k₀) v = Except.error b := by
      rw [hf b k₀ hnc]
      exact setIdx_err O b v hbad
    rw [List.nil_append, setLoop_cons_err O idxf v k₀ ks₂ b b hstep,
      List.map_nil, setIdxsList_nil, hO.withBoard_board]
  | cons k rest ih =>
    intro k₀ ks₂ b hnc hlt hbad
    have hk : f k < (O.board b).length := hlt k (by simp)
    have hstep : setIdx O b (idxf b k) v =
        Except.ok (O.withBoard b ((O.board b).set (f k) v)) := by
      rw [hf b k hnc]
      exact setIdx_ok O b v hk
    rw [List.cons_append, setLoop_cons_ok O idxf v k (rest ++ k₀ :: ks₂) b _ hstep]
    rw [ih k₀ ks₂ (O.withBoard b ((O.board b).set (f k) v))
      (by rw [hO.n_cols_withBoard]; exact hnc)
      (by
        intro k' hk'
        rw [hO.board_withBoard, List.length_set]
        exact hlt k' (by simp [hk']))
      (by rw [hO.board_withBoard, List.length_set]; exact hbad)]
    rw [hO.board_withBoard, hO.withBoard_withBoard, List.map_cons, setIdxsList_cons]

end BitBoard

/-- One guarded bit write, as performed by each branch of the neighbor
    operations. -/
def condSet (P : Prop) [Decidable P] (bits : List Bool) (i : Nat) (v : Bool) :
    List Bool :=
  if P then bits.set i v else bits

theorem length_condSet (P : Prop) [Decidable P] (bits : List Bool) (i : Nat)
    (v : Bool) : (condSet P bits i v).length = bits.length := by
  unfold condSet
  split <;> simp [List.length_set]

theorem getD_condSet (P : Prop) [Decidable P] (bits : List Bool) (i j : Nat)
    (v : Bool) :
    (condSet P bits i v).getD j false =
      if P ∧ i = j ∧ j < bits.length then v else bits.getD j false := by
  unfold condSet
  by_cases h : P
  · simp only [h, if_true, true_and]
    exact getD_set bits i j v
  · simp [h]

/-- The effect of `set_cardinal_neighbors(row, col, v)` on the backing bits
    (above, below, left, right in program order). -/
def cardBits (bits : List Bool) (nr nc row col : Nat) (v : Bool) : List Bool :=
  condSet (col < nc - 1)
    (condSet (0 < col)
      (condSet (row < nr - 1)
        (condSet (0 < row) bits ((row - 1) * nc + col) v)
        ((row + 1) * nc + col) v)
      (row * nc + (col - 1)) v)
    (row * nc + (col + 1)) v

/-- The effect of `set_diagonals(row, col, v)` on the backing bits
    (above-left, above-right, below-left, below-right in program order). -/
def diagBits (bits : List Bool) (nr nc row col : Nat) (v : Bool) : List Bool :=
  condSet (row < nr - 1 ∧ col < nc - 1)
    (condSet (row < nr - 1 ∧ 0 < col)
      (condSet (0 < row ∧ col < nc - 1)
        (condSet (0 < row ∧ 0 < col) bits ((row - 1) * nc + (col - 1)) v)
        ((row - 1) * nc + (col + 1)) v)
      ((row + 1) * nc + (col - 1)) v)
    ((row + 1) * nc + (col + 1)) v

theorem length_cardBits (bits : List Bool) (nr nc row col : Nat) (v : Bool) :
    (cardBits bits nr nc row col v).length = bits.length := by
  unfold cardBits
  rw [length_condSet, length_condSet, length_condSet, length_condSet]

theorem length_diagBits (bits : List Bool) (nr nc row col : Nat) (v : Bool) :
    (diagBits bits nr nc row col v).length = bits.length := by
  unfold diagBits
  rw [length_condSet, length_condSet, length_condSet, length_condSet]

theorem getD_cardBits (bits : List Bool) (nr nc row col j : Nat) (v : Bool)
    (hj : j < bits.length) :
    (cardBits bits nr nc row col v).getD j false =
      if (0 < row ∧ (row - 1) * nc + col = j) ∨ (row < nr - 1 ∧ (row + 1) * nc + col = j)
          ∨ (0 < col ∧ row * nc + (col - 1) = j) ∨ (col < nc - 1 ∧ row * nc + (col + 1) = j)
      then v else bits.getD j false := by
  unfold cardBits
  rw [getD_condSet, getD_condSet, getD_condSet, getD_condSet]
  simp only [length_condSet, hj, and_true]
  by_cases h1 : 0 < row ∧ (row - 1) * nc + col = j <;>
    by_cases h2 : row < nr - 1 ∧ (row + 1) * nc + col = j <;>
      by_cases h3 : 0 < col ∧ row * nc + (col - 1) = j <;>
        by_cases h4 : col < nc - 1 ∧ row * nc + (col + 1) = j <;>
          simp [h1, h2, h3, h4]

theorem getD_diagBits (bits : List Bool) (nr nc row col j : Nat) (v : Bool)
    (hj : j < bits.length) :
    (diagBits bits nr nc row col v).getD j false =
      if ((0 < row ∧ 0 < col) ∧ (row - 1) * nc + (col - 1) = j)
          ∨ ((0 < row ∧ col < nc - 1) ∧ (row - 1) * nc + (col + 1) = j)
          ∨ ((row < nr - 1 ∧ 0 < col) ∧ (row + 1) * nc + (col - 1) = j)
          ∨ ((row < nr - 1 ∧ col < nc - 1) ∧ (row + 1) * nc + (col + 1) = j)
      then v else bits.getD j false := by
  unfold diagBits
  rw [getD_condSet, getD_condSet, getD_condSet, getD_condSet]
  simp only [length_condSet, hj, and_true]
  by_cases h1 : (0 < row ∧ 0 < col) ∧ (row - 1) * nc + (col - 1) = j <;>
    by_cases h2 : (0 < row ∧ col < nc - 1) ∧ (row - 1) * nc + (col + 1) = j <;>
      by_cases h3 : (row < nr - 1 ∧ 0 < col) ∧ (row + 1) * nc + (col - 1) = j <;>
        by_cases h4 : (row < nr - 1 ∧ col < nc - 1) ∧ (row + 1) * nc + (col + 1) = j <;>
          simp [h1, h2, h3, h4]

theorem ite_ite_and {α : Type} (P Q : Prop) [Decidable P] [Decidable Q]
    (a c : α) :
    (if P then (if Q then a else c) else c) = if P ∧ Q then a else c := by
  by_cases hP : P <;> by_cases hQ : Q <;> simp [hP, hQ]

theorem exceptBind_ok {ε α γ : Type} (a : α) (f : α → Except ε γ) :
    (Except.ok a >>= f : Except ε γ) = f a := rfl

namespace BitBoard

variable {β : Type}

theorem set_step (O : BoardOps β) (hO : LawfulOps O) {nr nc : Nat} (s : β)
    (hrows : O.n_rows s = nr) (hcols : O.n_cols s = nc)
    (hlen : nr * nc ≤ (O.board s).length)
    (P : Prop) [Decidable P] (r c : Nat) (v : Bool)
    (hP : P → r < nr ∧ c < nc) :
    (if P then set O s r c v else Except.ok s) =
      Except.ok (O.withBoard s (condSet P (O.board s) (r * nc + c) v)) := by
  unfold condSet
  by_cases h : P
  · simp only [h, if_true]
    have h1 : r < O.n_rows s := by rw [hrows]; exact (hP h).1
    have h2 : c < O.n_cols s := by rw [hcols]; exact (hP h).2
    have h3 : r * O.n_cols s + c < (O.board s).length := by
      rw [hcols]
      exact lt_of_lt_of_le (rc_lt (hP h).1 (hP h).2) hlen
    rw [set_ok O s v h1 h2 h3, hcols]
  · simp only [h, if_false, hO.withBoard_board]

theorem set_cardinal_neighbors_ok (O : BoardOps β) (hO : LawfulOps O)
    (b : β) (row col : Nat) (v : Bool)
    (hr : row < O.n_rows b) (hc : col < O.n_cols b)
    (hlen : O.n_rows b * O.n_cols b ≤ (O.board b).length) :
    set_cardinal_neighbors O b row col v =
      Except.ok (O.withBoard b
        (cardBits (O.board b) (O.n_rows b) (O.n_cols b) row col v)) := by
  have hnr0 : ¬ (O.n_rows b = 0) := by omega
  have hnc0 : ¬ (O.n_cols b = 0) := by omega
  unfold set_cardinal_neighbors
  rw [set_step O hO b rfl rfl hlen (0 < row) (row - 1) col v
    (fun _ => ⟨by omega, hc⟩)]
  simp only [exceptBind_ok, hO.n_rows_withBoard, hO.n_cols_withBoard]
  rw [if_neg hnr0]
  rw [set_step O hO _ (hO.n_rows_withBoard _ _) (hO.n_cols_withBoard _ _)
    (by rw [hO.board_withBoard, length_condSet]; exact hlen)
    (row < O.n_rows b - 1) (row + 1) col v (fun h => ⟨by omega, hc⟩)]
  simp only [exceptBind_ok, hO.n_rows_withBoard, hO.n_cols_withBoard,
    hO.board_withBoard, hO.withBoard_withBoard]
  rw [set_step O hO _ (hO.n_rows_withBoard _ _) (hO.n_cols_withBoard _ _)
    (by rw [hO.board_withBoard, length_condSet, length_condSet]; exact hlen)
    (0 < col) row (col - 1) v (fun _ => ⟨hr, by omega⟩)]
  simp only [exceptBind_ok, hO.n_rows_withBoard, hO.n_cols_withBoard,
    hO.board_withBoard, hO.withBoard_withBoard]
  rw [if_neg hnc0]
  rw [set_step O hO _ (hO.n_rows_withBoard _ _) (hO.n_cols_withBoard _ _)
    (by rw [hO.board_withBoard, length_condSet, length_condSet, length_condSet]
        exact hlen)
    (col < O.n_cols b - 1) row (col + 1) v (fun h => ⟨hr, by omega⟩)]
  simp only [hO.board_withBoard, hO.withBoard_withBoard]
  rfl

theorem set_diagonals_ok (O : BoardOps β) (hO : LawfulOps O)
    (b : β) (row col : Nat) (v : Bool)
    (hr : row < O.n_rows b) (hc : col < O.n_cols b)
    (hlen : O.n_rows b * O.n_cols b ≤ (O.board b).length) :
    set_diagonals O b row col v =
      Except.ok (O.withBoard b
        (diagBits (O.board b) (O.n_rows b) (O.n_cols b) row col v)) := by
  have hnr0 : ¬ (O.n_rows b = 0) := by omega
  have hnc0 : ¬ (O.n_cols b = 0) := by omega
  unfold set_diagonals
  rw [set_step O hO b rfl rfl hlen (0 < row ∧ 0 < col) (row - 1) (col - 1) v
    (fun h => ⟨by omega, by omega⟩)]
  simp only [exceptBind_ok, hO.n_rows_withBoard, hO.n_cols_withBoard]
  rw [if_neg hnc0, ite_ite_and]
  rw [set_step O hO _ (hO.n_rows_withBoard _ _) (hO.n_cols_withBoard _ _)
    (by rw [hO.board_withBoard, length_condSet]; exact hlen)
    (0 < row ∧ col < O.n_cols b - 1) (row - 1) (col + 1) v
    (fun h => ⟨by omega, by omega⟩)]
  simp only [exceptBind_ok, hO.n_rows_withBoard, hO.n_cols_withBoard,
    hO.board_withBoard, hO.withBoard_withBoard]
  rw [if_neg hnr0]
  rw [set_step O hO _ (hO.n_rows_withBoard _ _) (hO.n_cols_withBoard _ _)
    (by rw [hO.board_withBoard, length_condSet, length_condSet]; exact hlen)
    (row < O.n_rows b - 1 ∧ 0 < col) (row + 1) (col - 1) v
    (fun h => ⟨by omega, by omega⟩)]
  simp only [exceptBind_ok, hO.n_rows_withBoard, hO.n_cols_withBoard,
    hO.board_withBoard, hO.withBoard_withBoard]
  rw [if_neg hnr0, if_neg hnc0, ite_ite_and]
  rw [set_step O hO _ (hO.n_rows_withBoard _ _) (hO.n_cols_withBoard _ _)
    (by rw [hO.board_withBoard, length_condSet, length_condSet, length_condSet]
        exact hlen)
    (row < O.n_rows b - 1 ∧ col < O.n_cols b - 1) (row + 1) (col + 1) v
    (fun h => ⟨by omega, by omega⟩)]
  simp only [hO.board_withBoard, hO.withBoard_withBoard]
  rfl

theorem set_all_neighbors_ok (O : BoardOps β) (hO : LawfulOps O)
    (b : β) (row col : Nat) (v : Bool)
    (hr : row < O.n_rows b) (hc : col < O.n_cols b)
    (hlen : O.n_rows b * O.n_cols b ≤ (O.board b).length) :
    set_all_neighbors O b row col v =
      Except.ok (O.withBoard b
        (diagBits (cardBits (O.board b) (O.n_rows b) (O.n_cols b) row col v)
          (O.n_rows b) (O.n_cols b) row col v)) := by
  unfold set_all_neighbors
  rw [set_cardinal_neighbors_ok O hO b row col v hr hc hlen]
  simp only [exceptBind_ok]
  rw [set_diagonals_ok O hO _ row col v
    (by rw [hO.n_rows_withBoard]; exact hr)
    (by rw [hO.n_cols_withBoard]; exact hc)
    (by rw [hO.n_rows_withBoard, hO.n_cols_withBoard, hO.board_withBoard,
          length_cardBits]
        exact hlen)]
  simp only [hO.n_rows_withBoard, hO.n_cols_withBoard, hO.board_withBoard,
    hO.withBoard_withBoard]

end BitBoard

/-- One interface operation of the shared `BitBoard` contract, as issued by a
    client algorithm against either backend.  The second operand of an
    `and`/`or` call is described by the interface program that builds it from
    a fresh board of the same shape. -/
inductive Op : Type where
  | fill (v : Bool)
  | set (row col : Nat) (v : Bool)
  | set_row (row : Nat) (v : Bool)
  | set_col (col : Nat) (v : Bool)
  | set_cardinal_neighbors (row col : Nat) (v : Bool)
  | set_diagonals (row col : Nat) (v : Bool)
  | set_all_neighbors (row col : Nat) (v : Bool)
  | and_with (prog : List Op)
  | or_with (prog : List Op)

mutual

/-- Run one interface operation on a `BitBoardDyn`; `none` when the operation
    panics (or when a shape mismatch makes `and`/`or` fail). -/
def applyDyn (b : BitBoardDyn) : Op → Option BitBoardDyn
  | Op.fill v => some (BitBoard.fill dynOps b v)
  | Op.set r c v => (BitBoard.set dynOps b r c v).toOption
  | Op.set_row r v => (BitBoard.set_row dynOps b r v).toOption
  | Op.set_col c v => (BitBoard.set_col dynOps b c v).toOption
  | Op.set_cardinal_neighbors r c v =>
    (BitBoard.set_cardinal_neighbors dynOps b r c v).toOption
  | Op.set_diagonals r c v => (BitBoard.set_diagonals dynOps b r c v).toOption
  | Op.set_all_neighbors r c v =>
    (BitBoard.set_all_neighbors dynOps b r c v).toOption
  | Op.and_with prog =>
    (runDyn (BitBoardDyn.new b.n_rows b.n_cols) prog).bind fun operand =>
      (BitBoardDyn.and b operand).toOption
  | Op.or_with prog =>
    (runDyn (BitBoardDyn.new b.n_rows b.n_cols) prog).bind fun operand =>
      (BitBoardDyn.or b operand).toOption

/-- Run a sequence of interface operations on a `BitBoardDyn`. -/
def runDyn (b : BitBoardDyn) : List Op → Option BitBoardDyn
  | [] => some b
  | o :: os => (applyDyn b o).bind fun b' => runDyn b' os

end

mutual

/-- Run one interface operation on a `BitBoardStatic W`. -/
def applyStat {W : Nat} (s : BitBoardStatic W) : Op → Option (BitBoardStatic W)
  | Op.fill v => some (BitBoard.fill (staticOps W) s v)
  | Op.set r c v => (BitBoard.set (staticOps W) s r c v).toOption
  | Op.set_row r v => (BitBoard.set_row (staticOps W) s r v).toOption
  | Op.set_col c v => (BitBoard.set_col (staticOps W) s c v).toOption
  | Op.set_cardinal_neighbors r c v =>
    (BitBoard.set_cardinal_neighbors (staticOps W) s r c v).toOption
  | Op.set_diagonals r c v =>
    (BitBoard.set_diagonals (staticOps W) s r c v).toOption
  | Op.set_all_neighbors r c v =>
    (BitBoard.set_all_neighbors (staticOps W) s r c v).toOption
  | Op.and_with prog =>
    (BitBoardStatic.new W s.n_rows s.n_cols).bind fun s0 =>
      (runStat s0 prog).bind fun operand =>
        (BitBoardStatic.and s operand).toOption
  | Op.or_with prog =>
    (BitBoardStatic.new W s.n_rows s.n_cols).bind fun s0 =>
      (runStat s0 prog).bind fun operand =>
        (BitBoardStatic.or s operand).toOption

/-- Run a sequence of interface operations on a `BitBoardStatic W`. -/
def runStat {W : Nat} (s : BitBoardStatic W) : List Op → Option (BitBoardStatic W)
  | [] => some s
  | o :: os => (applyStat s o).bind fun s' => runStat s' os

end

mutual

/-- Arguments of the operation are within the `nr × nc` shape. -/
def Op.valid (nr nc : Nat) : Op → Bool
  | Op.fill _ => true
  | Op.set r c _ => decide (r < nr) && decide (c < nc)
  | Op.set_row r _ => decide (r < nr)
  | Op.set_col c _ => decide (c < nc)
  | Op.set_cardinal_neighbors r c _ => decide (r < nr) && decide (c < nc)
  | Op.set_diagonals r c _ => decide (r < nr) && decide (c < nc)
  | Op.set_all_neighbors r c _ => decide (r < nr) && decide (c < nc)
  | Op.and_with prog => Prog.valid nr nc prog
  | Op.or_with prog => Prog.valid nr nc prog

/-- All operations of the program have in-range arguments. -/
def Prog.valid (nr nc : Nat) : List Op → Bool
  | [] => true
  | o :: os => Op.valid nr nc o && Prog.valid nr nc os

end

mutual

/-- The operation is not a `fill(true)` (and contains none in its operand
    program). -/
def Op.noFillTrue : Op → Bool
  | Op.fill v => !v
  | Op.and_with prog => Prog.noFillTrue prog
  | Op.or_with prog => Prog.noFillTrue prog
  | _ => true

/-- The program contains no `fill(true)`. -/
def Prog.noFillTrue : List Op → Bool
  | [] => true
  | o :: os => Op.noFillTrue o && Prog.noFillTrue os

end

/-- Simulation relation of C5: the two backends carry the same shape and agree
    on every logical bit; lengths and the capacity bound are carried along. -/
def sim (W nr nc : Nat) (d : BitBoardDyn) (s : BitBoardStatic W) : Prop :=
  d.n_rows = nr ∧ d.n_cols = nc ∧ s.n_rows = nr ∧ s.n_cols = nc ∧
  d.board.length = nr * nc ∧ s.board.length = W * usizeBits ∧
  nr * nc ≤ W * usizeBits ∧
  ∀ i, i < nr * nc → d.board.getD i false = s.board.getD i false

theorem dyn_n_rows (b : BitBoardDyn) : dynOps.n_rows b = b.n_rows := rfl

theorem dyn_n_cols (b : BitBoardDyn) : dynOps.n_cols b = b.n_cols := rfl

theorem dyn_board (b : BitBoardDyn) : dynOps.board b = b.board := rfl

theorem dyn_withBoard (b : BitBoardDyn) (bits : List Bool) :
    dynOps.withBoard b bits = ⟨bits, b.n_rows, b.n_cols⟩ := rfl

theorem stat_n_rows {W : Nat} (s : BitBoardStatic W) :
    (staticOps W).n_rows s = s.n_rows := rfl

theorem stat_n_cols {W : Nat} (s : BitBoardStatic W) :
    (staticOps W).n_cols s = s.n_cols := rfl

theorem stat_board {W : Nat} (s : BitBoardStatic W) :
    (staticOps W).board s = s.board := rfl

theorem stat_withBoard {W : Nat} (s : BitBoardStatic W) (bits : List Bool) :
    (staticOps W).withBoard s bits = ⟨bits, s.n_rows, s.n_cols⟩ := rfl

theorem static_new_eq (W nr nc : Nat) (h : nr * nc ≤ W * usizeBits) :
    BitBoardStatic.new W nr nc =
      some ⟨List.replicate (W * usizeBits) false, nr, nc⟩ := by
  unfold BitBoardStatic.new
  rw [if_pos h]

theorem getD_len_le (bits : List Bool) (i : Nat) (h : bits.length ≤ i) :
    bits.getD i false = false := by
  rw [List.getD_eq_getElem?_getD, List.getElem?_eq_none h]
  rfl

theorem length_bitOrAssign (a b : List Bool) :
    (bitOrAssign a b).length = a.length := by
  unfold bitOrAssign
  rw [List.length_append, List.length_zipWith, List.length_drop, Nat.min_def]
  split <;> omega

theorem length_bitAndAssign (a b : List Bool) :
    (bitAndAssign a b).length = a.length := by
  unfold bitAndAssign
  rw [List.length_append, List.length_zipWith, List.length_drop, Nat.min_def]
  split <;> omega

theorem getD_bitOrAssign (a b : List Bool) (j : Nat)
    (hja : j < a.length) (hjb : j < b.length) :
    (bitOrAssign a b).getD j false = ((a.getD j false) || (b.getD j false)) := by
  unfold bitOrAssign
  have hlt : j < (List.zipWith (fun x y => x || y) a b).length := by
    rw [List.length_zipWith]
    omega
  rw [List.getD_eq_getElem?_getD, List.getElem?_append, if_pos hlt,
    List.getElem?_zipWith, List.getElem?_eq_getElem hja,
    List.getElem?_eq_getElem hjb,
    List.getD_eq_getElem?_getD a, List.getD_eq_getElem?_getD b,
    List.getElem?_eq_getElem hja, List.getElem?_eq_getElem hjb]
  rfl

theorem getD_bitAndAssign (a b : List Bool) (j : Nat)
    (hja : j < a.length) (hjb : j < b.length) :
    (bitAndAssign a b).getD j false = ((a.getD j false) && (b.getD j false)) := by
  unfold bitAndAssign
  have hlt : j < (List.zipWith (fun x y => x && y) a b).length := by
    rw [List.length_zipWith]
    omega
  rw [List.getD_eq_getElem?_getD, List.getElem?_append, if_pos hlt,
    List.getElem?_zipWith, List.getElem?_eq_getElem hja,
    List.getElem?_eq_getElem hjb,
    List.getD_eq_getElem?_getD a, List.getD_eq_getElem?_getD b,
    List.getElem?_eq_getElem hja, List.getElem?_eq_getElem hjb]
  rfl

theorem sim_new (W nr nc : Nat) (h : nr * nc ≤ W * usizeBits) :
    sim W nr nc (BitBoardDyn.new nr nc)
      ⟨List.replicate (W * usizeBits) false, nr, nc⟩ := by
  refine ⟨rfl, rfl, rfl, rfl, by simp [BitBoardDyn.new], by simp, h, ?_⟩
  intro i _
  show (List.replicate (nr * nc) false).getD i false =
    (List.replicate (W * usizeBits) false).getD i false
  rw [getD_replicate, getD_replicate]
  split <;> split <;> rfl

theorem simFill {W nr nc : Nat} {d : BitBoardDyn} {s : BitBoardStatic W}
    (h : sim W nr nc d s) (v : Bool) :
    sim W nr nc (BitBoard.fill dynOps d v) (BitBoard.fill (staticOps W) s v) := by
  obtain ⟨hdr, hdc, hsr, hsc, hdl, hsl, hcap, hbits⟩ := h
  unfold BitBoard.fill
  rw [dyn_withBoard, stat_withBoard]
  refine ⟨hdr, hdc, hsr, hsc, ?_, ?_, hcap, ?_⟩
  · show (List.replicate (dynOps.board d).length v).length = nr * nc
    rw [List.length_replicate, dyn_board, hdl]
  · show (List.replicate ((staticOps W).board s).length v).length = W * usizeBits
    rw [List.length_replicate, stat_board, hsl]
  · intro i hi
    show (List.replicate (dynOps.board d).length v).getD i false =
      (List.replicate ((staticOps W).board s).length v).getD i false
    rw [dyn_board, stat_board, hdl, hsl, getD_replicate, getD_replicate,
      if_pos (by omega), if_pos (by omega)]

theorem simSet {W nr nc : Nat} {d : BitBoardDyn} {s : BitBoardStatic W}
    (h : sim W nr nc d s) {r c : Nat} (hr : r < nr) (hc : c < nc) (v : Bool) :
    ∃ d' s', BitBoard.set dynOps d r c v = Except.ok d' ∧
      BitBoard.set (staticOps W) s r c v = Except.ok s' ∧ sim W nr nc d' s' := by
  obtain ⟨hdr, hdc, hsr, hsc, hdl, hsl, hcap, hbits⟩ := h
  have hd1 : r < dynOps.n_rows d := by rw [dyn_n_rows, hdr]; exact hr
  have hd2 : c < dynOps.n_cols d := by rw [dyn_n_cols, hdc]; exact hc
  have hd3 : r * dynOps.n_cols d + c < (dynOps.board d).length := by
    rw [dyn_n_cols, dyn_board, hdc, hdl]
    exact rc_lt hr hc
  have hs1 : r < (staticOps W).n_rows s := by rw [stat_n_rows, hsr]; exact hr
  have hs2 : c < (staticOps W).n_cols s := by rw [stat_n_cols, hsc]; exact hc
  have hs3 : r * (staticOps W).n_cols s + c < ((staticOps W).board s).length := by
    rw [stat_n_cols, stat_board, hsc, hsl]
    exact lt_of_lt_of_le (rc_lt hr hc) hcap
  refine ⟨_, _, BitBoard.set_ok dynOps d v hd1 hd2 hd3,
    BitBoard.set_ok (staticOps W) s v hs1 hs2 hs3, ?_⟩
  rw [dyn_withBoard, stat_withBoard]
  refine ⟨hdr, hdc, hsr, hsc, ?_, ?_, hcap, ?_⟩
  · show ((dynOps.board d).set (r * dynOps.n_cols d + c) v).length = nr * nc
    rw [List.length_set, dyn_board, hdl]
  · show (((staticOps W).board s).set (r * (staticOps W).n_cols s + c) v).length
      = W * usizeBits
    rw [List.length_set, stat_board, hsl]
  · intro i hi
    show ((dynOps.board d).set (r * dynOps.n_cols d + c) v).getD i false =
      (((staticOps W).board s).set (r * (staticOps W).n_cols s + c) v).getD i false
    rw [dyn_board, stat_board, dyn_n_cols, stat_n_cols, hdc, hsc,
      getD_set, getD_set, hdl, hsl]
    by_cases hidx : r * nc + c = i
    · rw [if_pos ⟨hidx, by omega⟩, if_pos ⟨hidx, by omega⟩]
    · rw [if_neg (by tauto), if_neg (by tauto)]
      exact hbits i hi

theorem simSetCol {W nr nc : Nat} {d : BitBoardDyn} {s : BitBoardStatic W}
    (h : sim W nr nc d s) {c : Nat} (hc : c < nc) (v : Bool) :
    ∃ d' s', BitBoard.set_col dynOps d c v = Except.ok d' ∧
      BitBoard.set_col (staticOps W) s c v = Except.ok s' ∧ sim W nr nc d' s' := by
  obtain ⟨hdr, hdc, hsr, hsc, hdl, hsl, hcap, hbits⟩ := h
  have hdeq : BitBoard.set_col dynOps d c v =
      Except.ok (dynOps.withBoard d
        (setIdxsList d.board ((List.range nr).map (fun r => r * nc + c)) v)) := by
    unfold BitBoard.set_col
    rw [dyn_n_rows, hdr]
    rw [BitBoard.setLoop_ok dynOps dynLawful nc (fun r => r * nc + c) _ v
      (fun b' k hk => by
        show k * dynOps.n_cols b' + c = k * nc + c
        rw [hk])
      (List.range nr) d (by rw [dyn_n_cols, hdc])
      (by
        intro k hk
        rw [dyn_board, hdl]
        exact rc_lt (List.mem_range.mp hk) hc)]
    rw [dyn_board]
  have hseq : BitBoard.set_col (staticOps W) s c v =
      Except.ok ((staticOps W).withBoard s
        (setIdxsList s.board ((List.range nr).map (fun r => r * nc + c)) v)) := by
    unfold BitBoard.set_col
    rw [stat_n_rows, hsr]
    rw [BitBoard.setLoop_ok (staticOps W) (staticLawful W) nc (fun r => r * nc + c) _ v
      (fun b' k hk => by
        show k * (staticOps W).n_cols b' + c = k * nc + c
        rw [hk])
      (List.range nr) s (by rw [stat_n_cols, hsc])
      (by
        intro k hk
        rw [stat_board, hsl]
        exact lt_of_lt_of_le (rc_lt (List.mem_range.mp hk) hc) hcap)]
    rw [stat_board]
  refine ⟨_, _, hdeq, hseq, ?_⟩
  rw [dyn_withBoard, stat_withBoard]
  refine ⟨hdr, hdc, hsr, hsc, ?_, ?_, hcap, ?_⟩
  · show (setIdxsList d.board ((List.range nr).map (fun r => r * nc + c)) v).length
      = nr * nc
    rw [setIdxsList_length, hdl]
  · show (setIdxsList s.board ((List.range nr).map (fun r => r * nc + c)) v).length
      = W * usizeBits
    rw [setIdxsList_length, hsl]
  · intro i hi
    show (setIdxsList d.board ((List.range nr).map (fun r => r * nc + c)) v).getD i false
      = (setIdxsList s.board ((List.range nr).map (fun r => r * nc + c)) v).getD i false
    rw [getD_setIdxsList, getD_setIdxsList, hdl, hsl]
    by_cases hm : i ∈ (List.range nr).map (fun r => r * nc + c)
    · rw [if_pos ⟨hm, by omega⟩, if_pos ⟨hm, by omega⟩]
    · rw [if_neg (by tauto), if_neg (by tauto)]
      exact hbits i hi

theorem simSetRow {W nr nc : Nat} {d : BitBoardDyn} {s : BitBoardStatic W}
    (h : sim W nr nc d s) {r : Nat} (hr : r < nr) (v : Bool) :
    ∃ d' s', BitBoard.set_row dynOps d r v = Except.ok d' ∧
      BitBoard.set_row (staticOps W) s r v = Except.ok s' ∧ sim W nr nc d' s' := by
  obtain ⟨hdr, hdc, hsr, hsc, hdl, hsl, hcap, hbits⟩ := h
  have hdeq : BitBoard.set_row dynOps d r v =
      Except.ok (dynOps.withBoard d
        (setIdxsList d.board ((List.range nc).map (fun k => r * nc + k)) v)) := by
    unfold BitBoard.set_row
    rw [dyn_n_cols, hdc]
    rw [BitBoard.setLoop_ok dynOps dynLawful nc (fun k => r * nc + k) _ v
      (fun b' k hk => by
        show r * dynOps.n_cols b' + k = r * nc + k
        rw [hk])
      (List.range nc) d (by rw [dyn_n_cols, hdc])
      (by
        intro k hk
        rw [dyn_board, hdl]
        exact rc_lt hr (List.mem_range.mp hk))]
    rw [dyn_board]
  have hseq : BitBoard.set_row (staticOps W) s r v =
      Except.ok ((staticOps W).withBoard s
        (setIdxsList s.board ((List.range nc).map (fun k => r * nc + k)) v)) := by
    unfold BitBoard.set_row
    rw [stat_n_cols, hsc]
    rw [BitBoard.setLoop_ok (staticOps W) (staticLawful W) nc (fun k => r * nc + k) _ v
      (fun b' k hk => by
        show r * (staticOps W).n_cols b' + k = r * nc + k
        rw [hk])
      (List.range nc) s (by rw [stat_n_cols, hsc])
      (by
        intro k hk
        rw [stat_board, hsl]
        exact lt_of_lt_of_le (rc_lt hr (List.mem_range.mp hk)) hcap)]
    rw [stat_board]
  refine ⟨_, _, hdeq, hseq, ?_⟩
  rw [dyn_withBoard, stat_withBoard]
  refine ⟨hdr, hdc, hsr, hsc, ?_, ?_, hcap, ?_⟩
  · show (setIdxsList d.board ((List.range nc).map (fun k => r * nc + k)) v).length
      = nr * nc
    rw [setIdxsList_length, hdl]
  · show (setIdxsList s.board ((List.range nc).map (fun k => r * nc + k)) v).length
      = W * usizeBits
    rw [setIdxsList_length, hsl]
  · intro i hi
    show (setIdxsList d.board ((List.range nc).map (fun k => r * nc + k)) v).getD i false
      = (setIdxsList s.board ((List.range nc).map (fun k => r * nc + k)) v).getD i false
    rw [getD_setIdxsList, getD_setIdxsList, hdl, hsl]
    by_cases hm : i ∈ (List.range nc).map (fun k => r * nc + k)
    · rw [if_pos ⟨hm, by omega⟩, if_pos ⟨hm, by omega⟩]
    · rw [if_neg (by tauto), if_neg (by tauto)]
      exact hbits i hi

theorem simCard {W nr nc : Nat} {d : BitBoardDyn} {s : BitBoardStatic W}
    (h : sim W nr nc d s) {r c : Nat} (hr : r < nr) (hc : c < nc) (v : Bool) :
    ∃ d' s', BitBoard.set_cardinal_neighbors dynOps d r c v = Except.ok d' ∧
      BitBoard.set_cardinal_neighbors (staticOps W) s r c v = Except.ok s' ∧
      sim W nr nc d' s' := by
  obtain ⟨hdr, hdc, hsr, hsc, hdl, hsl, hcap, hbits⟩ := h
  have hdok := BitBoard.set_cardinal_neighbors_ok dynOps dynLawful d r c v
    (by rw [dyn_n_rows, hdr]; exact hr) (by rw [dyn_n_cols, hdc]; exact hc)
    (by rw [dyn_n_rows, dyn_n_cols, dyn_board, hdr, hdc, hdl])
  have hsok := BitBoard.set_cardinal_neighbors_ok (staticOps W) (staticLawful W)
    s r c v
    (by rw [stat_n_rows, hsr]; exact hr) (by rw [stat_n_cols, hsc]; exact hc)
    (by rw [stat_n_rows, stat_n_cols, stat_board, hsr, hsc, hsl]; exact hcap)
  rw [dyn_n_rows, dyn_n_cols, dyn_board, hdr, hdc, dyn_withBoard] at hdok
  rw [stat_n_rows, stat_n_cols, stat_board, hsr, hsc, stat_withBoard] at hsok
  refine ⟨_, _, hdok, hsok, hdr, hdc, hsr, hsc, ?_, ?_, hcap, ?_⟩
  · show (cardBits d.board nr nc r c v).length = nr * nc
    rw [length_cardBits, hdl]
  · show (cardBits s.board nr nc r c v).length = W * usizeBits
    rw [length_cardBits, hsl]
  · intro i hi
    show (cardBits d.board nr nc r c v).getD i false
      = (cardBits s.board nr nc r c v).getD i false
    rw [getD_cardBits d.board nr nc r c i v (by omega),
      getD_cardBits s.board nr nc r c i v (by omega)]
    by_cases hcond : (0 < r ∧ (r - 1) * nc + c = i) ∨ (r < nr - 1 ∧ (r + 1) * nc + c = i)
        ∨ (0 < c ∧ r * nc + (c - 1) = i) ∨ (c < nc - 1 ∧ r * nc + (c + 1) = i)
    · rw [if_pos hcond, if_pos hcond]
    · rw [if_neg hcond, if_neg hcond]
      exact hbits i hi

theorem simDiag {W nr nc : Nat} {d : BitBoardDyn} {s : BitBoardStatic W}
    (h : sim W nr nc d s) {r c : Nat} (hr : r < nr) (hc : c < nc) (v : Bool) :
    ∃ d' s', BitBoard.set_diagonals dynOps d r c v = Except.ok d' ∧
      BitBoard.set_diagonals (staticOps W) s r c v = Except.ok s' ∧
      sim W nr nc d' s' := by
  obtain ⟨hdr, hdc, hsr, hsc, hdl, hsl, hcap, hbits⟩ := h
  have hdok := BitBoard.set_diagonals_ok dynOps dynLawful d r c v
    (by rw [dyn_n_rows, hdr]; exact hr) (by rw [dyn_n_cols, hdc]; exact hc)
    (by rw [dyn_n_rows, dyn_n_cols, dyn_board, hdr, hdc, hdl])
  have hsok := BitBoard.set_diagonals_ok (staticOps W) (staticLawful W) s r c v
    (by rw [stat_n_rows, hsr]; exact hr) (by rw [stat_n_cols, hsc]; exact hc)
    (by rw [stat_n_rows, stat_n_cols, stat_board, hsr, hsc, hsl]; exact hcap)
  rw [dyn_n_rows, dyn_n_cols, dyn_board, hdr, hdc, dyn_withBoard] at hdok
  rw [stat_n_rows, stat_n_cols, stat_board, hsr, hsc, stat_withBoard] at hsok
  refine ⟨_, _, hdok, hsok, hdr, hdc, hsr, hsc, ?_, ?_, hcap, ?_⟩
  · show (diagBits d.board nr nc r c v).length = nr * nc
    rw [length_diagBits, hdl]
  · show (diagBits s.board nr nc r c v).length = W * usizeBits
    rw [length_diagBits, hsl]
  · intro i hi
    show (diagBits d.board nr nc r c v).getD i false
      = (diagBits s.board nr nc r c v).getD i false
    rw [getD_diagBits d.board nr nc r c i v (by omega),
      getD_diagBits s.board nr nc r c i v (by omega)]
    by_cases hcond : ((0 < r ∧ 0 < c) ∧ (r - 1) * nc + (c - 1) = i)
        ∨ ((0 < r ∧ c < nc - 1) ∧ (r - 1) * nc + (c + 1) = i)
        ∨ ((r < nr - 1 ∧ 0 < c) ∧ (r + 1) * nc + (c - 1) = i)
        ∨ ((r < nr - 1 ∧ c < nc - 1) ∧ (r + 1) * nc + (c + 1) = i)
    · rw [if_pos hcond, if_pos hcond]
    · rw [if_neg hcond, if_neg hcond]
      exact hbits i hi

theorem simAll {W nr nc : Nat} {d : BitBoardDyn} {s : BitBoardStatic W}
    (h : sim W nr nc d s) {r c : Nat} (hr : r < nr) (hc : c < nc) (v : Bool) :
    ∃ d' s', BitBoard.set_all_neighbors dynOps d r c v = Except.ok d' ∧
      BitBoard.set_all_neighbors (staticOps W) s r c v = Except.ok s' ∧
      sim W nr nc d' s' := by
  obtain ⟨hdr, hdc, hsr, hsc, hdl, hsl, hcap, hbits⟩ := h
  have hdok := BitBoard.set_all_neighbors_ok dynOps dynLawful d r c v
    (by rw [dyn_n_rows, hdr]; exact hr) (by rw [dyn_n_cols, hdc]; exact hc)
    (by rw [dyn_n_rows, dyn_n_cols, dyn_board, hdr, hdc, hdl])
  have hsok := BitBoard.set_all_neighbors_ok (staticOps W) (staticLawful W) s r c v
    (by rw [stat_n_rows, hsr]; exact hr) (by rw [stat_n_cols, hsc]; exact hc)
    (by rw [stat_n_rows, stat_n_cols, stat_board, hsr, hsc, hsl]; exact hcap)
  rw [dyn_n_rows, dyn_n_cols, dyn_board, hdr, hdc, dyn_withBoard] at hdok
  rw [stat_n_rows, stat_n_cols, stat_board, hsr, hsc, stat_withBoard] at hsok
  refine ⟨_, _, hdok, hsok, hdr, hdc, hsr, hsc, ?_, ?_, hcap, ?_⟩
  · show (diagBits (cardBits d.board nr nc r c v) nr nc r c v).length = nr * nc
    rw [length_diagBits, length_cardBits, hdl]
  · show (diagBits (cardBits s.board nr nc r c v) nr nc r c v).length
      = W * usizeBits
    rw [length_diagBits, length_cardBits, hsl]
  · intro i hi
    show (diagBits (cardBits d.board nr nc r c v) nr nc r c v).getD i false
      = (diagBits (cardBits s.board nr nc r c v) nr nc r c v).getD i false
    rw [getD_diagBits _ nr nc r c i v (by rw [length_cardBits]; omega),
      getD_diagBits _ nr nc r c i v (by rw [length_cardBits]; omega)]
    by_cases hcond1 : ((0 < r ∧ 0 < c) ∧ (r - 1) * nc + (c - 1) = i)
        ∨ ((0 < r ∧ c < nc - 1) ∧ (r - 1) * nc + (c + 1) = i)
        ∨ ((r < nr - 1 ∧ 0 < c) ∧ (r + 1) * nc + (c - 1) = i)
        ∨ ((r < nr - 1 ∧ c < nc - 1) ∧ (r + 1) * nc + (c + 1) = i)
    · rw [if_pos hcond1, if_pos hcond1]
    · rw [if_neg hcond1, if_neg hcond1]
      rw [getD_cardBits d.board nr nc r c i v (by omega),
        getD_cardBits s.board nr nc r c i v (by omega)]
      by_cases hcond2 : (0 < r ∧ (r - 1) * nc + c = i) ∨ (r < nr - 1 ∧ (r + 1) * nc + c = i)
          ∨ (0 < c ∧ r * nc + (c - 1) = i) ∨ (c < nc - 1 ∧ r * nc + (c + 1) = i)
      · rw [if_pos hcond2, if_pos hcond2]
      · rw [if_neg hcond2, if_neg hcond2]
        exact hbits i hi

theorem simAnd {W nr nc : Nat} {d1 d2 : BitBoardDyn} {s1 s2 : BitBoardStatic W}
    (h1 : sim W nr nc d1 s1) (h2 : sim W nr nc d2 s2) :
    ∃ d' s', BitBoardDyn.and d1 d2 = Except.ok d' ∧
      BitBoardStatic.and s1 s2 = Except.ok s' ∧ sim W nr nc d' s' := by
  obtain ⟨hdr1, hdc1, hsr1, hsc1, hdl1, hsl1, hcap, hbits1⟩ := h1
  obtain ⟨hdr2, hdc2, hsr2, hsc2, hdl2, hsl2, _, hbits2⟩ := h2
  have hdok : BitBoardDyn.and d1 d2 =
      Except.ok ⟨bitAndAssign d1.board d2.board, d1.n_rows, d1.n_cols⟩ := by
    unfold BitBoardDyn.and
    rw [if_neg (by omega)]
  have hsok : BitBoardStatic.and s1 s2 =
      Except.ok ⟨bitAndAssign s1.board s2.board, s1.n_rows, s1.n_cols⟩ := by
    unfold BitBoardStatic.and
    rw [if_neg (by omega)]
  refine ⟨_, _, hdok, hsok, hdr1, hdc1, hsr1, hsc1, ?_, ?_, hcap, ?_⟩
  · show (bitAndAssign d1.board d2.board).length = nr * nc
    rw [length_bitAndAssign, hdl1]
  · show (bitAndAssign s1.board s2.board).length = W * usizeBits
    rw [length_bitAndAssign, hsl1]
  · intro i hi
    show (bitAndAssign d1.board d2.board).getD i false
      = (bitAndAssign s1.board s2.board).getD i false
    rw [getD_bitAndAssign _ _ _ (by omega) (by omega),
      getD_bitAndAssign _ _ _ (by omega) (by omega),
      hbits1 i hi, hbits2 i hi]

theorem simOr {W nr nc : Nat} {d1 d2 : BitBoardDyn} {s1 s2 : BitBoardStatic W}
    (h1 : sim W nr nc d1 s1) (h2 : sim W nr nc d2 s2) :
    ∃ d' s', BitBoardDyn.or d1 d2 = Except.ok d' ∧
      BitBoardStatic.or s1 s2 = Except.ok s' ∧ sim W nr nc d' s' := by
  obtain ⟨hdr1, hdc1, hsr1, hsc1, hdl1, hsl1, hcap, hbits1⟩ := h1
  obtain ⟨hdr2, hdc2, hsr2, hsc2, hdl2, hsl2, _, hbits2⟩ := h2
  have hdok : BitBoardDyn.or d1 d2 =
      Except.ok ⟨bitOrAssign d1.board d2.board, d1.n_rows, d1.n_cols⟩ := by
    unfold BitBoardDyn.or
    rw [if_neg (by omega)]
  have hsok : BitBoardStatic.or s1 s2 =
      Except.ok ⟨bitOrAssign s1.board s2.board, s1.n_rows, s1.n_cols⟩ := by
    unfold BitBoardStatic.or
    rw [if_neg (by omega)]
  refine ⟨_, _, hdok, hsok, hdr1, hdc1, hsr1, hsc1, ?_, ?_, hcap, ?_⟩
  · show (bitOrAssign d1.board d2.board).length = nr * nc
    rw [length_bitOrAssign, hdl1]
  · show (bitOrAssign s1.board s2.board).length = W * usizeBits
    rw [length_bitOrAssign, hsl1]
  · intro i hi
    show (bitOrAssign d1.board d2.board).getD i false
      = (bitOrAssign s1.board s2.board).getD i false
    rw [getD_bitOrAssign _ _ _ (by omega) (by omega),
      getD_bitOrAssign _ _ _ (by omega) (by omega),
      hbits1 i hi, hbits2 i hi]

mutual

theorem simApply {W nr nc : Nat} (o : Op) (d : BitBoardDyn) (s : BitBoardStatic W)
    (h : sim W nr nc d s) (hv : Op.valid nr nc o = true) :
    ∃ d' s', applyDyn d o = some d' ∧ applyStat s o = some s' ∧
      sim W nr nc d' s' := by
  cases o with
  | fill v =>
    refine ⟨BitBoard.fill dynOps d v, BitBoard.fill (staticOps W) s v, ?_, ?_,
      simFill h v⟩
    · simp only [applyDyn]
    · simp only [applyStat]
  | set r c v =>
    simp only [Op.valid, Bool.and_eq_true, decide_eq_true_eq] at hv
    obtain ⟨d', s', hd, hs, hsim⟩ := simSet h hv.1 hv.2 v
    exact ⟨d', s', by simp only [applyDyn]; rw [hd]; rfl,
      by simp only [applyStat]; rw [hs]; rfl, hsim⟩
  | set_row r v =>
    simp only [Op.valid, decide_eq_true_eq] at hv
    obtain ⟨d', s', hd, hs, hsim⟩ := simSetRow h hv v
    exact ⟨d', s', by simp only [applyDyn]; rw [hd]; rfl,
      by simp only [applyStat]; rw [hs]; rfl, hsim⟩
  | set_col c v =>
    simp only [Op.valid, decide_eq_true_eq] at hv
    obtain ⟨d', s', hd, hs, hsim⟩ := simSetCol h hv v
    exact ⟨d', s', by simp only [applyDyn]; rw [hd]; rfl,
      by simp only [applyStat]; rw [hs]; rfl, hsim⟩
  | set_cardinal_neighbors r c v =>
    simp only [Op.valid, Bool.and_eq_true, decide_eq_true_eq] at hv
    obtain ⟨d', s', hd, hs, hsim⟩ := simCard h hv.1 hv.2 v
    exact ⟨d', s', by simp only [applyDyn]; rw [hd]; rfl,
      by simp only [applyStat]; rw [hs]; rfl, hsim⟩
  | set_diagonals r c v =>
    simp only [Op.valid, Bool.and_eq_true, decide_eq_true_eq] at hv
    obtain ⟨d', s', hd, hs, hsim⟩ := simDiag h hv.1 hv.2 v
    exact ⟨d', s', by simp only [applyDyn]; rw [hd]; rfl,
      by simp only [applyStat]; rw [hs]; rfl, hsim⟩
  | set_all_neighbors r c v =>
    simp only [Op.valid, Bool.and_eq_true, decide_eq_true_eq] at hv
    obtain ⟨d', s', hd, hs, hsim⟩ := simAll h hv.1 hv.2 v
    exact ⟨d', s', by simp only [applyDyn]; rw [hd]; rfl,
      by simp only [applyStat]; rw [hs]; rfl, hsim⟩
  | and_with prog =>
    simp only [Op.valid] at hv
    have hcap : nr * nc ≤ W * usizeBits := h.2.2.2.2.2.2.1
    obtain ⟨od, os', hrd, hrs, hsimop⟩ :=
      simRun prog (BitBoardDyn.new nr nc) _ (sim_new W nr nc hcap) hv
    obtain ⟨d', s', hando, hands, hsim'⟩ := simAnd h hsimop
    refine ⟨d', s', ?_, ?_, hsim'⟩
    · simp only [applyDyn]
      rw [h.1, h.2.1, hrd, Option.some_bind, hando]
      rfl
    · simp only [applyStat]
      rw [h.2.2.1, h.2.2.2.1, static_new_eq W nr nc hcap, Option.some_bind,
        hrs, Option.some_bind, hands]
      rfl
  | or_with prog =>
    simp only [Op.valid] at hv
    have hcap : nr * nc ≤ W * usizeBits := h.2.2.2.2.2.2.1
    obtain ⟨od, os', hrd, hrs, hsimop⟩ :=
      simRun prog (BitBoardDyn.new nr nc) _ (sim_new W nr nc hcap) hv
    obtain ⟨d', s', hando, hands, hsim'⟩ := simOr h hsimop
    refine ⟨d', s', ?_, ?_, hsim'⟩
    · simp only [applyDyn]
      rw [h.1, h.2.1, hrd, Option.some_bind, hando]
      rfl
    · simp only [applyStat]
      rw [h.2.2.1, h.2.2.2.1, static_new_eq W nr nc hcap, Option.some_bind,
        hrs, Option.some_bind, hands]
      rfl
termination_by sizeOf o

theorem simRun {W nr nc : Nat} (os : List Op) (d : BitBoardDyn)
    (s : BitBoardStatic W) (h : sim W nr nc d s)
    (hv : Prog.valid nr nc os = true) :
    ∃ d' s', runDyn d os = some d' ∧ runStat s os = some s' ∧
      sim W nr nc d' s' := by
  cases os with
  | nil => exact ⟨d, s, by simp only [runDyn], by simp only [runStat], h⟩
  | cons o rest =>
    simp only [Prog.valid, Bool.and_eq_true] at hv
    obtain ⟨d1, s1, h1, h2, hsim1⟩ := simApply o d s h hv.1
    obtain ⟨d', s', h3, h4, hsim'⟩ := simRun rest d1 s1 hsim1 hv.2
    exact ⟨d', s', by simp only [runDyn]; rw [h1, Option.some_bind, h3],
      by simp only [runStat]; rw [h2, Option.some_bind, h4], hsim'⟩
termination_by sizeOf os

end

/-- Invariant of the amended C6: the shape and capacity data of the fixed
    board, and every bit at or past the logical `nr * nc` prefix is `false`. -/
def slackOK (W nr nc : Nat) (s : BitBoardStatic W) : Prop :=
  s.n_rows = nr ∧ s.n_cols = nc ∧ s.board.length = W * usizeBits ∧
  nr * nc ≤ W * usizeBits ∧
  ∀ i, nr * nc ≤ i → s.board.getD i false = false

theorem slack_new (W nr nc : Nat) (h : nr * nc ≤ W * usizeBits) :
    slackOK W nr nc ⟨List.replicate (W * usizeBits) false, nr, nc⟩ := by
  refine ⟨rfl, rfl, by simp, h, ?_⟩
  intro i _
  show (List.replicate (W * usizeBits) false).getD i false = false
  rw [getD_replicate]
  split <;> rfl

theorem toOption_eq_some {ε α : Type} (e : Except ε α) (x : α)
    (h : e.toOption = some x) : e = Except.ok x := by
  cases e with
  | ok a =>
    simp only [Except.toOption, Option.some.injEq] at h
    rw [h]
  | error b => simp [Except.toOption] at h

mutual

theorem slackApply {W nr nc : Nat} (o : Op) (s s' : BitBoardStatic W)
    (hs : slackOK W nr nc s) (hv : Op.valid nr nc o = true)
    (hnf : Op.noFillTrue o = true) (happ : applyStat s o = some s') :
    slackOK W nr nc s' := by
  obtain ⟨hsr, hsc, hsl, hcap, hslack⟩ := hs
  cases o with
  | fill v =>
    simp only [Op.noFillTrue] at hnf
    have hv' : v = false := by cases v <;> simp_all
    subst hv'
    simp only [applyStat, Option.some.injEq] at happ
    subst happ
    unfold BitBoard.fill
    rw [stat_withBoard]
    refine ⟨hsr, hsc, ?_, hcap, ?_⟩
    · show (List.replicate ((staticOps W).board s).length false).length
        = W * usizeBits
      rw [List.length_replicate, stat_board, hsl]
    · intro i hi
      show (List.replicate ((staticOps W).board s).length false).getD i false
        = false
      rw [getD_replicate]
      split <;> rfl
  | set r c v =>
    simp only [Op.valid, Bool.and_eq_true, decide_eq_true_eq] at hv
    have hchar := BitBoard.set_ok (staticOps W) s v
      (show r < (staticOps W).n_rows s by rw [stat_n_rows, hsr]; exact hv.1)
      (show c < (staticOps W).n_cols s by rw [stat_n_cols, hsc]; exact hv.2)
      (by
        rw [stat_n_cols, stat_board, hsc, hsl]
        exact lt_of_lt_of_le (rc_lt hv.1 hv.2) hcap)
    simp only [applyStat] at happ
    rw [hchar] at happ
    simp only [Except.toOption, Option.some.injEq] at happ
    subst happ
    rw [stat_withBoard]
    refine ⟨hsr, hsc, ?_, hcap, ?_⟩
    · show (((staticOps W).board s).set (r * (staticOps W).n_cols s + c) v).length
        = W * usizeBits
      rw [List.length_set, stat_board, hsl]
    · intro i hi
      show (((staticOps W).board s).set (r * (staticOps W).n_cols s + c) v).getD i false
        = false
      rw [stat_board, stat_n_cols, hsc, getD_set]
      rw [if_neg (by
        have hlt := rc_lt hv.1 hv.2
        omega)]
      exact hslack i hi
  | set_row r v =>
    simp only [Op.valid, decide_eq_true_eq] at hv
    have hchar : BitBoard.set_row (staticOps W) s r v =
        Except.ok ((staticOps W).withBoard s
          (setIdxsList s.board ((List.range nc).map (fun k => r * nc + k)) v)) := by
      unfold BitBoard.set_row
      rw [stat_n_cols, hsc]
      rw [BitBoard.setLoop_ok (staticOps W) (staticLawful W) nc
        (fun k => r * nc + k) _ v
        (fun b' k hk => by
          show r * (staticOps W).n_cols b' + k = r * nc + k
          rw [hk])
        (List.range nc) s (by rw [stat_n_cols, hsc])
        (by
          intro k hk
          rw [stat_board, hsl]
          exact lt_of_lt_of_le (rc_lt hv (List.mem_range.mp hk)) hcap)]
      rw [stat_board]
    simp only [applyStat] at happ
    rw [hchar] at happ
    simp only [Except.toOption, Option.some.injEq] at happ
    subst happ
    rw [stat_withBoard]
    refine ⟨hsr, hsc, ?_, hcap, ?_⟩
    · show (setIdxsList s.board ((List.range nc).map (fun k => r * nc + k)) v).length
        = W * usizeBits
      rw [setIdxsList_length, hsl]
    · intro i hi
      show (setIdxsList s.board ((List.range nc).map (fun k => r * nc + k)) v).getD i false
        = false
      rw [getD_setIdxsList]
      rw [if_neg (by
        rintro ⟨hm, -⟩
        obtain ⟨k, hk, hki⟩ := List.mem_map.mp hm
        have hlt := rc_lt hv (List.mem_range.mp hk)
        omega)]
      exact hslack i hi
  | set_col c v =>
    simp only [Op.valid, decide_eq_true_eq] at hv
    have hchar : BitBoard.set_col (staticOps W) s c v =
        Except.ok ((staticOps W).withBoard s
          (setIdxsList s.board ((List.range nr).map (fun k => k * nc + c)) v)) := by
      unfold BitBoard.set_col
      rw [stat_n_rows, hsr]
      rw [BitBoard.setLoop_ok (staticOps W) (staticLawful W) nc
        (fun k => k * nc + c) _ v
        (fun b' k hk => by
          show k * (staticOps W).n_cols b' + c = k * nc + c
          rw [hk])
        (List.range nr) s (by rw [stat_n_cols, hsc])
        (by
          intro k hk
          rw [stat_board, hsl]
          exact lt_of_lt_of_le (rc_lt (List.mem_range.mp hk) hv) hcap)]
      rw [stat_board]
    simp only [applyStat] at happ
    rw [hchar] at happ
    simp only [Except.toOption, Option.some.injEq] at happ
    subst happ
    rw [stat_withBoard]
    refine ⟨hsr, hsc, ?_, hcap, ?_⟩
    · show (setIdxsList s.board ((List.range nr).map (fun k => k * nc + c)) v).length
        = W * usizeBits
      rw [setIdxsList_length, hsl]
    · intro i hi
      show (setIdxsList s.board ((List.range nr).map (fun k => k * nc + c)) v).getD i false
        = false
      rw [getD_setIdxsList]
      rw [if_neg (by
        rintro ⟨hm, -⟩
        obtain ⟨k, hk, hki⟩ := List.mem_map.mp hm
        have hlt := rc_lt (List.mem_range.mp hk) hv
        omega)]
      exact hslack i hi
  | set_cardinal_neighbors r c v =>
    simp only [Op.valid, Bool.and_eq_true, decide_eq_true_eq] at hv
    have hchar := BitBoard.set_cardinal_neighbors_ok (staticOps W)
      (staticLawful W) s r c v
      (by rw [stat_n_rows, hsr]; exact hv.1) (by rw [stat_n_cols, hsc]; exact hv.2)
      (by rw [stat_n_rows, stat_n_cols, stat_board, hsr, hsc, hsl]; exact hcap)
    rw [stat_n_rows, stat_n_cols, stat_board, hsr, hsc, stat_withBoard] at hchar
    simp only [applyStat] at happ
    rw [hchar] at happ
    simp only [Except.toOption, Option.some.injEq] at happ
    subst happ
    refine ⟨hsr, hsc, ?_, hcap, ?_⟩
    · show (cardBits s.board nr nc r c v).length = W * usizeBits
      rw [length_cardBits, hsl]
    · intro i hi
      show (cardBits s.board nr nc r c v).getD i false = false
      by_cases hilen : i < W * usizeBits
      · rw [getD_cardBits s.board nr nc r c i v (by omega)]
        rw [if_neg (by
          have h1 : (r - 1) * nc + c < nr * nc := rc_lt (by omega) hv.2
          have h3 : r * nc + (c - 1) < nr * nc := rc_lt hv.1 (by omega)
          rintro (⟨-, he⟩ | ⟨hf, he⟩ | ⟨-, he⟩ | ⟨hf, he⟩)
          · omega
          · have h2 : (r + 1) * nc + c < nr * nc := rc_lt (by omega) hv.2
            omega
          · omega
          · have h4 : r * nc + (c + 1) < nr * nc := rc_lt hv.1 (by omega)
            omega)]
        exact hslack i hi
      · exact getD_len_le _ i (by rw [length_cardBits, hsl]; omega)
  | set_diagonals r c v =>
    simp only [Op.valid, Bool.and_eq_true, decide_eq_true_eq] at hv
    have hchar := BitBoard.set_diagonals_ok (staticOps W) (staticLawful W) s r c v
      (by rw [stat_n_rows, hsr]; exact hv.1) (by rw [stat_n_cols, hsc]; exact hv.2)
      (by rw [stat_n_rows, stat_n_cols, stat_board, hsr, hsc, hsl]; exact hcap)
    rw [stat_n_rows, stat_n_cols, stat_board, hsr, hsc, stat_withBoard] at hchar
    simp only [applyStat] at happ
    rw [hchar] at happ
    simp only [Except.toOption, Option.some.injEq] at happ
    subst happ
    refine ⟨hsr, hsc, ?_, hcap, ?_⟩
    · show (diagBits s.board nr nc r c v).length = W * usizeBits
      rw [length_diagBits, hsl]
    · intro i hi
      show (diagBits s.board nr nc r c v).getD i false = false
      by_cases hilen : i < W * usizeBits
      · rw [getD_diagBits s.board nr nc r c i v (by omega)]
        rw [if_neg (by
          rintro (⟨⟨h5, h6⟩, he⟩ | ⟨⟨h5, h6⟩, he⟩ | ⟨⟨h5, h6⟩, he⟩ | ⟨⟨h5, h6⟩, he⟩)
          · have hx : (r - 1) * nc + (c - 1) < nr * nc := rc_lt (by omega) (by omega)
            omega
          · have hx : (r - 1) * nc + (c + 1) < nr * nc := rc_lt (by omega) (by omega)
            omega
          · have hx : (r + 1) * nc + (c - 1) < nr * nc := rc_lt (by omega) (by omega)
            omega
          · have hx : (r + 1) * nc + (c + 1) < nr * nc := rc_lt (by omega) (by omega)
            omega)]
        exact hslack i hi
      · exact getD_len_le _ i (by rw [length_diagBits, hsl]; omega)
  | set_all_neighbors r c v =>
    simp only [Op.valid, Bool.and_eq_true, decide_eq_true_eq] at hv
    have hchar := BitBoard.set_all_neighbors_ok (staticOps W) (staticLawful W)
      s r c v
      (by rw [stat_n_rows, hsr]; exact hv.1) (by rw [stat_n_cols, hsc]; exact hv.2)
      (by rw [stat_n_rows, stat_n_cols, stat_board, hsr, hsc, hsl]; exact hcap)
    rw [stat_n_rows, stat_n_cols, stat_board, hsr, hsc, stat_withBoard] at hchar
    simp only [applyStat] at happ
    rw [hchar] at happ
    simp only [Except.toOption, Option.some.injEq] at happ
    subst happ
    refine ⟨hsr, hsc, ?_, hcap, ?_⟩
    · show (diagBits (cardBits s.board nr nc r c v) nr nc r c v).length
        = W * usizeBits
      rw [length_diagBits, length_cardBits, hsl]
    · intro i hi
      show (diagBits (cardBits s.board nr nc r c v) nr nc r c v).getD i false
        = false
      by_cases hilen : i < W * usizeBits
      · rw [getD_diagBits _ nr nc r c i v (by rw [length_cardBits]; omega)]
        rw [if_neg (by
          rintro (⟨⟨h5, h6⟩, he⟩ | ⟨⟨h5, h6⟩, he⟩ | ⟨⟨h5, h6⟩, he⟩ | ⟨⟨h5, h6⟩, he⟩)
          · have hx : (r - 1) * nc + (c - 1) < nr * nc := rc_lt (by omega) (by omega)
            omega
          · have hx : (r - 1) * nc + (c + 1) < nr * nc := rc_lt (by omega) (by omega)
            omega
          · have hx : (r + 1) * nc + (c - 1) < nr * nc := rc_lt (by omega) (by omega)
            omega
          · have hx : (r + 1) * nc + (c + 1) < nr * nc := rc_lt (by omega) (by omega)
            omega)]
        rw [getD_cardBits s.board nr nc r c i v (by omega)]
        rw [if_neg (by
          have h1 : (r - 1) * nc + c < nr * nc := rc_lt (by omega) hv.2
          have h3 : r * nc + (c - 1) < nr * nc := rc_lt hv.1 (by omega)
          rintro (⟨-, he⟩ | ⟨hf, he⟩ | ⟨-, he⟩ | ⟨hf, he⟩)
          · omega
          · have h2 : (r + 1) * nc + c < nr * nc := rc_lt (by omega) hv.2
            omega
          · omega
          · have h4 : r * nc + (c + 1) < nr * nc := rc_lt hv.1 (by omega)
            omega)]
        exact hslack i hi
      · exact getD_len_le _ i
          (by rw [length_diagBits, length_cardBits, hsl]; omega)
  | and_with prog =>
    simp only [Op.valid] at hv
    simp only [Op.noFillTrue] at hnf
    simp only [applyStat] at happ
    rw [hsr, hsc, static_new_eq W nr nc hcap, Option.some_bind] at happ
    obtain ⟨operand, hrun, hband⟩ := Option.bind_eq_some.mp happ
    obtain ⟨hor, hoc, holen, -, hoslack⟩ :=
      slackRun prog _ operand (slack_new W nr nc hcap) hv hnf hrun
    have hband' := toOption_eq_some _ _ hband
    unfold BitBoardStatic.and at hband'
    rw [if_neg (by omega)] at hband'
    simp only [Except.ok.injEq] at hband'
    subst hband'
    refine ⟨hsr, hsc, ?_, hcap, ?_⟩
    · show (bitAndAssign s.board operand.board).length = W * usizeBits
      rw [length_bitAndAssign, hsl]
    · intro i hi
      show (bitAndAssign s.board operand.board).getD i false = false
      by_cases hilen : i < W * usizeBits
      · rw [getD_bitAndAssign _ _ _ (by omega) (by omega), hslack i hi]
        rfl
      · exact getD_len_le _ i (by rw [length_bitAndAssign, hsl]; omega)
  | or_with prog =>
    simp only [Op.valid] at hv
    simp only [Op.noFillTrue] at hnf
    simp only [applyStat] at happ
    rw [hsr, hsc, static_new_eq W nr nc hcap, Option.some_bind] at happ
    obtain ⟨operand, hrun, hband⟩ := Option.bind_eq_some.mp happ
    obtain ⟨hor, hoc, holen, -, hoslack⟩ :=
      slackRun prog _ operand (slack_new W nr nc hcap) hv hnf hrun
    have hband' := toOption_eq_some _ _ hband
    unfold BitBoardStatic.or at hband'
    rw [if_neg (by omega)] at hband'
    simp only [Except.ok.injEq] at hband'
    subst hband'
    refine ⟨hsr, hsc, ?_, hcap, ?_⟩
    · show (bitOrAssign s.board operand.board).length = W * usizeBits
      rw [length_bitOrAssign, hsl]
    · intro i hi
      show (bitOrAssign s.board operand.board).getD i false = false
      by_cases hilen : i < W * usizeBits
      · rw [getD_bitOrAssign _ _ _ (by omega) (by omega), hslack i hi,
          hoslack i hi]
        rfl
      · exact getD_len_le _ i (by rw [length_bitOrAssign, hsl]; omega)
termination_by sizeOf o

theorem slackRun {W nr nc : Nat} (os : List Op) (s s' : BitBoardStatic W)
    (hs : slackOK W nr nc s) (hv : Prog.valid nr nc os = true)
    (hnf : Prog.noFillTrue os = true) (hrun : runStat s os = some s') :
    slackOK W nr nc s' := by
  cases os with
  | nil =>
    simp only [runStat, Option.some.injEq] at hrun
    subst hrun
    exact hs
  | cons o rest =>
    simp only [Prog.valid, Bool.and_eq_true] at hv
    simp only [Prog.noFillTrue, Bool.and_eq_true] at hnf
    simp only [runStat] at hrun
    obtain ⟨s1, h1, h2⟩ := Option.bind_eq_some.mp hrun
    exact slackRun rest s1 s' (slackApply o s s1 hs hv.1 hnf.1 h1) hv.2 hnf.2 h2
termination_by sizeOf os

end

theorem exists_split_first_bad (p : Nat → Prop) [DecidablePred p] :
    ∀ ks : List Nat, (∃ k ∈ ks, ¬ p k) →
      ∃ ks₁ k₀ ks₂, ks = ks₁ ++ k₀ :: ks₂ ∧ (∀ k ∈ ks₁, p k) ∧ ¬ p k₀ := by
  intro ks
  induction ks with
  | nil =>
    rintro ⟨k, hk, -⟩
    exact absurd hk (List.not_mem_nil k)
  | cons k rest ih =>
    intro hex
    by_cases hk : p k
    · have hex' : ∃ k' ∈ rest, ¬ p k' := by
        obtain ⟨k', hk', hnp⟩ := hex
        rcases List.mem_cons.mp hk' with h | h
        · subst h
          exact absurd hk hnp
        · exact ⟨k', h, hnp⟩
      obtain ⟨ks₁, k₀, ks₂, heq, hgood, hbad⟩ := ih hex'
      refine ⟨k :: ks₁, k₀, ks₂, by rw [heq]; rfl, ?_, hbad⟩
      intro x hx
      rcases List.mem_cons.mp hx with h | h
      · subst h
        exact hk
      · exact hgood x h
    · exact ⟨[], k, rest, rfl, by intro x hx; exact absurd hx (List.not_mem_nil x),
        hk⟩

/-- C1, counterexample: `get` is claimed to "never error", but on a 2×2 fixed
    board (as built by `new`) the call `get(2, 0)` panics inside `index_of`
    (assertion `row <= n_rows - 1` fails), modelled as `none`. -/
theorem c1_get_counterexample :
    BitBoardStatic.new 1 2 2 = some ⟨List.replicate 64 false, 2, 2⟩ ∧
    BitBoard.get (staticOps 1) ⟨List.replicate 64 false, 2, 2⟩ 2 0 = none := by
  constructor
  · decide
  · decide

/-- C1, amended: for `(row, col)` within the board's shape, `get` never
    errors: it returns the stored bit, and if the computed linear index were
    outside the storage bounds the read would yield `false` (the
    `unwrap_or(&false)` default of `getD`) rather than an error.  Out-of-shape
    coordinates, however, make `get` fail fatally inside `index_of`. -/
theorem c1_get_in_shape_never_errors {W : Nat} (s : BitBoardStatic W)
    (row col : Nat) (hr : row < s.n_rows) (hc : col < s.n_cols) :
    BitBoard.get (staticOps W) s row col =
      some (s.board.getD (row * s.n_cols + col) false) := by
  rw [BitBoard.get_eq]
  rw [if_pos ⟨hr, hc⟩]
  rfl

theorem c1_get_in_shape_witness :
    BitBoard.get (staticOps 1) ⟨List.replicate 64 false, 1, 2⟩ 0 1 = some false := by
  have h := c1_get_in_shape_never_errors (W := 1)
    ⟨List.replicate 64 false, 1, 2⟩ 0 1 (by decide) (by decide)
  rw [h]
  decide

theorem c2_aux {γ : Type} (P : Prop) [Decidable P] (x : γ) (Q : Prop)
    (hPQ : P ↔ Q) :
    ((if P then Except.error DimensionMismatch.mk else Except.ok x) =
      Except.error DimensionMismatch.mk ↔ Q) := by
  by_cases h : P
  · rw [if_pos h]
    simp [hPQ.mp h]
  · rw [if_neg h]
    constructor
    · intro hcontra
      exact Except.noConfusion hcontra
    · intro hq
      exact absurd (hPQ.mpr hq) h

/-- C2: for both backends, `and` and `or` return the `DimensionMismatch`
    error exactly when the operand shapes differ.  Operand preservation holds
    by construction in this embedding: both operations are pure functions of
    the two operands, reading them and building a fresh result board. -/
theorem c2_dimension_mismatch_iff :
    (∀ a b : BitBoardDyn,
      (BitBoardDyn.or a b = Except.error DimensionMismatch.mk ↔
        ¬ (a.n_rows = b.n_rows ∧ a.n_cols = b.n_cols)) ∧
      (BitBoardDyn.and a b = Except.error DimensionMismatch.mk ↔
        ¬ (a.n_rows = b.n_rows ∧ a.n_cols = b.n_cols))) ∧
    (∀ (W : Nat) (a b : BitBoardStatic W),
      (BitBoardStatic.or a b = Except.error DimensionMismatch.mk ↔
        ¬ (a.n_rows = b.n_rows ∧ a.n_cols = b.n_cols)) ∧
      (BitBoardStatic.and a b = Except.error DimensionMismatch.mk ↔
        ¬ (a.n_rows = b.n_rows ∧ a.n_cols = b.n_cols))) := by
  refine ⟨fun a b => ⟨?_, ?_⟩, fun W a b => ⟨?_, ?_⟩⟩
  · unfold BitBoardDyn.or
    exact c2_aux _ _ _ (by tauto)
  · unfold BitBoardDyn.and
    exact c2_aux _ _ _ (by tauto)
  · unfold BitBoardStatic.or
    exact c2_aux _ _ _ (by tauto)
  · unfold BitBoardStatic.and
    exact c2_aux _ _ _ (by tauto)

/-- C7: `BitBoardStatic::<W>::new(nr, nc)` fails fatally exactly when
    `nr * nc` exceeds `W * usizeBits` (never silently truncating); on success
    — and always for `BitBoardDyn::new` — the board stores the given shape
    and every bit is `false`. -/
theorem c7_new_spec :
    (∀ W nr nc : Nat,
      (BitBoardStatic.new W nr nc = none ↔ W * usizeBits < nr * nc) ∧
      (∀ s, BitBoardStatic.new W nr nc = some s →
        s.n_rows = nr ∧ s.n_cols = nc ∧ s.board.length = W * usizeBits ∧
        ∀ i, s.board.getD i false = false)) ∧
    (∀ nr nc : Nat,
      (BitBoardDyn.new nr nc).n_rows = nr ∧ (BitBoardDyn.new nr nc).n_cols = nc ∧
      (BitBoardDyn.new nr nc).board.length = nr * nc ∧
      ∀ i, (BitBoardDyn.new nr nc).board.getD i false = false) := by
  constructor
  · intro W nr nc
    constructor
    · unfold BitBoardStatic.new
      by_cases h : nr * nc ≤ W * usizeBits
      · rw [if_pos h]
        constructor
        · intro hno
          exact Option.noConfusion hno
        · intro hlt
          omega
      · rw [if_neg h]
        constructor
        · intro _
          omega
        · intro _
          rfl
    · intro s hs
      unfold BitBoardStatic.new at hs
      by_cases h : nr * nc ≤ W * usizeBits
      · rw [if_pos h] at hs
        have heq := Option.some.inj hs
        subst heq
        refine ⟨rfl, rfl, by simp, ?_⟩
        intro i
        show (List.replicate (W * usizeBits) false).getD i false = false
        rw [getD_replicate]
        split <;> rfl
      · rw [if_neg h] at hs
        exact Option.noConfusion hs
  · intro nr nc
    refine ⟨rfl, rfl, by simp [BitBoardDyn.new], ?_⟩
    intro i
    show (List.replicate (nr * nc) false).getD i false = false
    rw [getD_replicate]
    split <;> rfl

theorem c7_new_witness :
    BitBoardStatic.new 1 2 2 = some ⟨List.replicate 64 false, 2, 2⟩ ∧
    BitBoardStatic.new 1 9 8 = none ∧
    ((⟨List.replicate 64 false, 2, 2⟩ : BitBoardStatic 1).n_rows = 2 ∧
      (⟨List.replicate 64 false, 2, 2⟩ : BitBoardStatic 1).n_cols = 2 ∧
      (List.replicate 64 false).length = 64 ∧
      ∀ i, (List.replicate (64 : Nat) false).getD i false = false) :=
  ⟨by decide, ((c7_new_spec.1 1 9 8).1).mpr (by decide),
    (c7_new_spec.1 1 2 2).2 ⟨List.replicate 64 false, 2, 2⟩ (by decide)⟩

/-- C8: for both backends and every board — the degenerate shapes
    `n_rows = 0` / `n_cols = 0` included, where the checked `usize`
    subtraction in `row <= n_rows() - 1` underflows fatally — `index_of`
    fails fatally iff `row ≥ n_rows` or `col ≥ n_cols`, and otherwise
    returns `row * n_cols + col`. -/
theorem c8_index_of_spec :
    (∀ (b : BitBoardDyn) (row col : Nat),
      BitBoard.index_of dynOps b row col =
        if row < b.n_rows ∧ col < b.n_cols then some (row * b.n_cols + col)
        else none) ∧
    (∀ (W : Nat) (s : BitBoardStatic W) (row col : Nat),
      BitBoard.index_of (staticOps W) s row col =
        if row < s.n_rows ∧ col < s.n_cols then some (row * s.n_cols + col)
        else none) := by
  constructor
  · intro b row col
    rw [BitBoard.index_of_eq]
    rfl
  · intro W s row col
    rw [BitBoard.index_of_eq]
    rfl

/-- C3: with equal shapes, `or` returns a fresh board whose bit at every
    linear index `i < n_rows * n_cols` is the OR of the operands' bits `i`,
    and `and` the AND; for both backends. -/
theorem c3_and_or_bitwise :
    (∀ a b : BitBoardDyn, a.n_rows = b.n_rows → a.n_cols = b.n_cols →
      a.board.length = a.n_rows * a.n_cols →
      b.board.length = a.n_rows * a.n_cols →
      (∃ c, BitBoardDyn.or a b = Except.ok c ∧ c.n_rows = a.n_rows ∧
        c.n_cols = a.n_cols ∧
        ∀ i, i < a.n_rows * a.n_cols →
          c.board.getD i false = (a.board.getD i false || b.board.getD i false)) ∧
      (∃ c, BitBoardDyn.and a b = Except.ok c ∧ c.n_rows = a.n_rows ∧
        c.n_cols = a.n_cols ∧
        ∀ i, i < a.n_rows * a.n_cols →
          c.board.getD i false = (a.board.getD i false && b.board.getD i false))) ∧
    (∀ (W : Nat) (a b : BitBoardStatic W), a.n_rows = b.n_rows →
      a.n_cols = b.n_cols →
      a.board.length = W * usizeBits → b.board.length = W * usizeBits →
      a.n_rows * a.n_cols ≤ W * usizeBits →
      (∃ c, BitBoardStatic.or a b = Except.ok c ∧ c.n_rows = a.n_rows ∧
        c.n_cols = a.n_cols ∧
        ∀ i, i < a.n_rows * a.n_cols →
          c.board.getD i false = (a.board.getD i false || b.board.getD i false)) ∧
      (∃ c, BitBoardStatic.and a b = Except.ok c ∧ c.n_rows = a.n_rows ∧
        c.n_cols = a.n_cols ∧
        ∀ i, i < a.n_rows * a.n_cols →
          c.board.getD i false = (a.board.getD i false && b.board.getD i false))) := by
  constructor
  · intro a b hr hc hla hlb
    constructor
    · refine ⟨⟨bitOrAssign a.board b.board, a.n_rows, a.n_cols⟩, ?_, rfl, rfl, ?_⟩
      · unfold BitBoardDyn.or
        rw [if_neg (by omega)]
      · intro i hi
        exact getD_bitOrAssign _ _ _ (by omega) (by omega)
    · refine ⟨⟨bitAndAssign a.board b.board, a.n_rows, a.n_cols⟩, ?_, rfl, rfl, ?_⟩
      · unfold BitBoardDyn.and
        rw [if_neg (by omega)]
      · intro i hi
        exact getD_bitAndAssign _ _ _ (by omega) (by omega)
  · intro W a b hr hc hla hlb hcap
    constructor
    · refine ⟨⟨bitOrAssign a.board b.board, a.n_rows, a.n_cols⟩, ?_, rfl, rfl, ?_⟩
      · unfold BitBoardStatic.or
        rw [if_neg (by omega)]
      · intro i hi
        exact getD_bitOrAssign _ _ _ (by omega) (by omega)
    · refine ⟨⟨bitAndAssign a.board b.board, a.n_rows, a.n_cols⟩, ?_, rfl, rfl, ?_⟩
      · unfold BitBoardStatic.and
        rw [if_neg (by omega)]
      · intro i hi
        exact getD_bitAndAssign _ _ _ (by omega) (by omega)

theorem c3_and_or_witness :
    (∃ c, BitBoardDyn.or ⟨[true, false, true, false], 2, 2⟩
        ⟨[false, true, true, false], 2, 2⟩ = Except.ok c ∧
      c.n_rows = 2 ∧ c.n_cols = 2 ∧
      ∀ i, i < 4 →
        c.board.getD i false = (([true, false, true, false] : List Bool).getD i false
          || ([false, true, true, false] : List Bool).getD i false)) ∧
    (∃ c, BitBoardDyn.and ⟨[true, false, true, false], 2, 2⟩
        ⟨[false, true, true, false], 2, 2⟩ = Except.ok c ∧
      c.n_rows = 2 ∧ c.n_cols = 2 ∧
      ∀ i, i < 4 →
        c.board.getD i false = (([true, false, true, false] : List Bool).getD i false
          && ([false, true, true, false] : List Bool).getD i false)) :=
  c3_and_or_bitwise.1 ⟨[true, false, true, false], 2, 2⟩
    ⟨[false, true, true, false], 2, 2⟩ rfl rfl (by decide) (by decide)

/-- C4: for every fixed board with `n_cols ≥ 1`, `row_col_of` inverts
    `index_of` on every in-shape `(row, col)`, and `index_of` inverts
    `row_col_of` on every linear index below `n_rows * n_cols`. -/
theorem c4_roundtrip {W : Nat} (s : BitBoardStatic W) (hnc : 1 ≤ s.n_cols) :
    (∀ r c, r < s.n_rows → c < s.n_cols →
      BitBoard.index_of (staticOps W) s r c = some (r * s.n_cols + c) ∧
      BitBoard.row_col_of (staticOps W) s (r * s.n_cols + c) = some (r, c)) ∧
    (∀ i, i < s.n_rows * s.n_cols →
      ∃ r c, BitBoard.row_col_of (staticOps W) s i = some (r, c) ∧
        BitBoard.index_of (staticOps W) s r c = some i) := by
  constructor
  · intro r c hr hc
    constructor
    · rw [BitBoard.index_of_eq]
      rw [if_pos ⟨hr, hc⟩]
      rfl
    · unfold BitBoard.row_col_of
      rw [if_neg (by rw [stat_n_cols]; omega)]
      have h1 : (r * s.n_cols + c) / s.n_cols = r := by
        rw [Nat.mul_comm r s.n_cols, Nat.mul_add_div (by omega),
          Nat.div_eq_of_lt hc]
        omega
      have h2 : (r * s.n_cols + c) % s.n_cols = c := by
        rw [Nat.mul_comm r s.n_cols, Nat.mul_add_mod, Nat.mod_eq_of_lt hc]
      rw [stat_n_cols, h1, h2]
  · intro i hi
    have hnr : 0 < s.n_rows := by
      by_contra h
      have h0 : s.n_rows = 0 := by omega
      rw [h0, Nat.zero_mul] at hi
      omega
    have hdiv : i / s.n_cols < s.n_rows :=
      Nat.div_lt_of_lt_mul (by rw [Nat.mul_comm]; exact hi)
    have hmod : i % s.n_cols < s.n_cols := Nat.mod_lt _ (by omega)
    refine ⟨i / s.n_cols, i % s.n_cols, ?_, ?_⟩
    · unfold BitBoard.row_col_of
      rw [if_neg (by rw [stat_n_cols]; omega), stat_n_cols]
    · rw [BitBoard.index_of_eq, stat_n_rows, stat_n_cols]
      rw [if_pos ⟨hdiv, hmod⟩]
      have hdm := Nat.div_add_mod i s.n_cols
      exact congrArg some (by rw [Nat.mul_comm]; exact hdm)

theorem c4_roundtrip_witness :
    BitBoard.index_of (staticOps 1) ⟨List.replicate 64 false, 2, 3⟩ 1 2 = some 5 ∧
    BitBoard.row_col_of (staticOps 1) ⟨List.replicate 64 false, 2, 3⟩ 5
      = some (1, 2) :=
  (c4_roundtrip ⟨List.replicate 64 false, 2, 3⟩ (by decide)).1 1 2 (by decide)
    (by decide)

/-- C9: for `(row, col)` within the shape, `set_cardinal_neighbors` succeeds,
    keeps the shape, sets exactly the in-bounds cells among
    `(row-1,col)`, `(row+1,col)`, `(row,col-1)`, `(row,col+1)` to `v`
    (out-of-shape neighbors silently skipped) and leaves every other cell
    unchanged; in particular on a 2×2 board `set_cardinal_neighbors(0,0,true)`
    yields bits `[false, true, true, false]` in row-major order. -/
theorem c9_cardinal_neighbors_spec :
    (∀ (b : BitBoardDyn) (row col : Nat) (v : Bool),
      b.board.length = b.n_rows * b.n_cols → row < b.n_rows → col < b.n_cols →
      ∃ b', BitBoard.set_cardinal_neighbors dynOps b row col v = Except.ok b' ∧
        b'.n_rows = b.n_rows ∧ b'.n_cols = b.n_cols ∧
        ∀ r c, r < b.n_rows → c < b.n_cols →
          b'.board.getD (r * b.n_cols + c) false =
            (if (c = col ∧ (r + 1 = row ∨ r = row + 1)) ∨
                (r = row ∧ (c + 1 = col ∨ c = col + 1))
             then v else b.board.getD (r * b.n_cols + c) false)) ∧
    BitBoard.set_cardinal_neighbors dynOps (BitBoardDyn.new 2 2) 0 0 true =
      Except.ok ⟨[false, true, true, false], 2, 2⟩ := by
  constructor
  · intro b row col v hlen hrow hcol
    have hchar := BitBoard.set_cardinal_neighbors_ok dynOps dynLawful b row col v
      (by rw [dyn_n_rows]; exact hrow) (by rw [dyn_n_cols]; exact hcol)
      (by rw [dyn_n_rows, dyn_n_cols, dyn_board, hlen])
    rw [dyn_n_rows, dyn_n_cols, dyn_board, dyn_withBoard] at hchar
    refine ⟨_, hchar, rfl, rfl, ?_⟩
    intro r c hr hc
    show (cardBits b.board b.n_rows b.n_cols row col v).getD (r * b.n_cols + c) false
      = _
    rw [getD_cardBits b.board b.n_rows b.n_cols row col (r * b.n_cols + c) v
      (by rw [hlen]; exact rc_lt hr hc)]
    have hiff : ((0 < row ∧ (row - 1) * b.n_cols + col = r * b.n_cols + c) ∨
        (row < b.n_rows - 1 ∧ (row + 1) * b.n_cols + col = r * b.n_cols + c) ∨
        (0 < col ∧ row * b.n_cols + (col - 1) = r * b.n_cols + c) ∨
        (col < b.n_cols - 1 ∧ row * b.n_cols + (col + 1) = r * b.n_cols + c)) ↔
        ((c = col ∧ (r + 1 = row ∨ r = row + 1)) ∨
         (r = row ∧ (c + 1 = col ∨ c = col + 1))) := by
      constructor
      · rintro (⟨h0, he⟩ | ⟨h0, he⟩ | ⟨h0, he⟩ | ⟨h0, he⟩)
        · obtain ⟨h1, h2⟩ := rc_inj hcol hc he
          exact Or.inl ⟨h2.symm, Or.inl (by omega)⟩
        · obtain ⟨h1, h2⟩ := rc_inj hcol hc he
          exact Or.inl ⟨h2.symm, Or.inr (by omega)⟩
        · obtain ⟨h1, h2⟩ := rc_inj (show col - 1 < b.n_cols by omega) hc he
          exact Or.inr ⟨h1.symm, Or.inl (by omega)⟩
        · obtain ⟨h1, h2⟩ := rc_inj (show col + 1 < b.n_cols by omega) hc he
          exact Or.inr ⟨h1.symm, Or.inr (by omega)⟩
      · rintro (⟨hceq, hrr | hrr⟩ | ⟨hreq, hcc | hcc⟩)
        · refine Or.inl ⟨by omega, ?_⟩
          subst hceq
          rw [show row - 1 = r by omega]
        · refine Or.inr (Or.inl ⟨by omega, ?_⟩)
          subst hceq
          rw [show row + 1 = r by omega]
        · refine Or.inr (Or.inr (Or.inl ⟨by omega, ?_⟩))
          subst hreq
          rw [show col - 1 = c by omega]
        · refine Or.inr (Or.inr (Or.inr ⟨by omega, ?_⟩))
          subst hreq
          rw [show col + 1 = c by omega]
    by_cases hcond : (c = col ∧ (r + 1 = row ∨ r = row + 1)) ∨
        (r = row ∧ (c + 1 = col ∨ c = col + 1))
    · rw [if_pos (hiff.mpr hcond), if_pos hcond]
    · rw [if_neg (fun h => hcond (hiff.mp h)), if_neg hcond]
  · rfl

theorem c9_cardinal_witness :
    ∃ b', BitBoard.set_cardinal_neighbors dynOps (BitBoardDyn.new 3 3) 1 1 true
        = Except.ok b' ∧
      b'.n_rows = 3 ∧ b'.n_cols = 3 ∧
      ∀ r c, r < 3 → c < 3 →
        b'.board.getD (r * 3 + c) false =
          (if (c = 1 ∧ (r + 1 = 1 ∨ r = 1 + 1)) ∨
              (r = 1 ∧ (c + 1 = 1 ∨ c = 1 + 1))
           then true else (BitBoardDyn.new 3 3).board.getD (r * 3 + c) false) :=
  c9_cardinal_neighbors_spec.1 (BitBoardDyn.new 3 3) 1 1 true (by decide)
    (by decide) (by decide)

/-- C10: `set_col` validates nothing.  Fixed backend: an out-of-range `col`
    succeeds whenever every raw index `r * n_cols + col` fits the word
    capacity, writing exactly those raw linear indices — the last conjunct
    shows `set_col(2, true)` on a 2×2 one-word board setting logical cell
    `(1, 0)` (raw index 2) and slack bit 4.  Growable backend: the same call
    fails at the first index at or past `n_rows * n_cols`, after having set
    the bits at all earlier (in-range) indices. -/
theorem c10_set_col_no_validation :
    (∀ (W : Nat) (s : BitBoardStatic W) (c : Nat) (v : Bool),
      s.board.length = W * usizeBits → s.n_cols ≤ c →
      (∀ r, r < s.n_rows → r * s.n_cols + c < W * usizeBits) →
      ∃ s', BitBoard.set_col (staticOps W) s c v = Except.ok s' ∧
        s'.n_rows = s.n_rows ∧ s'.n_cols = s.n_cols ∧
        ∀ i, s'.board.getD i false =
          (if ∃ r, r < s.n_rows ∧ r * s.n_cols + c = i then v
           else s.board.getD i false)) ∧
    (∀ (d : BitBoardDyn) (c : Nat) (v : Bool),
      d.board.length = d.n_rows * d.n_cols → d.n_cols ≤ c →
      0 < d.n_rows → 0 < d.n_cols →
      ∃ b', BitBoard.set_col dynOps d c v = Except.error b' ∧
        b'.n_rows = d.n_rows ∧ b'.n_cols = d.n_cols ∧
        ∀ i, b'.board.getD i false =
          (if ∃ r, r < d.n_rows ∧ r * d.n_cols + c = i ∧ i < d.n_rows * d.n_cols
           then v else d.board.getD i false)) ∧
    (BitBoard.set_col (staticOps 1) ⟨List.replicate 64 false, 2, 2⟩ 2 true =
      Except.ok ⟨((List.replicate 64 false).set 2 true).set 4 true, 2, 2⟩ ∧
     BitBoard.get (staticOps 1)
       ⟨((List.replicate 64 false).set 2 true).set 4 true, 2, 2⟩ 1 0 = some true) := by
  refine ⟨?_, ?_, by constructor <;> rfl⟩
  · intro W s c v hlen hc hcap2
    have hchar : BitBoard.set_col (staticOps W) s c v =
        Except.ok ((staticOps W).withBoard s
          (setIdxsList s.board
            ((List.range s.n_rows).map (fun k => k * s.n_cols + c)) v)) := by
      unfold BitBoard.set_col
      rw [stat_n_rows]
      rw [BitBoard.setLoop_ok (staticOps W) (staticLawful W) s.n_cols
        (fun k => k * s.n_cols + c) _ v
        (fun b' k hk => by
          show k * (staticOps W).n_cols b' + c = k * s.n_cols + c
          rw [hk])
        (List.range s.n_rows) s rfl
        (by
          intro k hk
          rw [stat_board, hlen]
          exact hcap2 k (List.mem_range.mp hk))]
      rw [stat_board]
    rw [stat_withBoard] at hchar
    refine ⟨_, hchar, rfl, rfl, ?_⟩
    intro i
    show (setIdxsList s.board
      ((List.range s.n_rows).map (fun k => k * s.n_cols + c)) v).getD i false = _
    rw [getD_setIdxsList]
    by_cases hcond : ∃ r, r < s.n_rows ∧ r * s.n_cols + c = i
    · obtain ⟨r, hr, hri⟩ := hcond
      rw [if_pos ⟨List.mem_map.mpr ⟨r, List.mem_range.mpr hr, hri⟩, by
          rw [hlen]
          have := hcap2 r hr
          omega⟩,
        if_pos ⟨r, hr, hri⟩]
    · rw [if_neg (by
          rintro ⟨hm, -⟩
          obtain ⟨k, hk, hki⟩ := List.mem_map.mp hm
          exact hcond ⟨k, List.mem_range.mp hk, hki⟩),
        if_neg hcond]
  · intro d c v hlen hc hnr hnc
    have hbadex : ∃ k ∈ List.range d.n_rows,
        ¬ (k * d.n_cols + c < d.n_rows * d.n_cols) := by
      refine ⟨d.n_rows - 1, List.mem_range.mpr (by omega), ?_⟩
      have h1 : (d.n_rows - 1 + 1) * d.n_cols = (d.n_rows - 1) * d.n_cols + d.n_cols :=
        Nat.succ_mul _ _
      have h2 : d.n_rows - 1 + 1 = d.n_rows := by omega
      rw [h2] at h1
      omega
    obtain ⟨ks₁, k₀, ks₂, hsplit, hgood, hbad⟩ :=
      exists_split_first_bad (fun k => k * d.n_cols + c < d.n_rows * d.n_cols)
        (List.range d.n_rows) hbadex
    have hpw := List.pairwise_lt_range d.n_rows
    rw [hsplit] at hpw
    obtain ⟨-, hp2, -⟩ := List.pairwise_append.mp hpw
    have hks₂ := (List.pairwise_cons.mp hp2).1
    have hmem : ∀ r, r < d.n_rows → r * d.n_cols + c < d.n_rows * d.n_cols →
        r ∈ ks₁ := by
      intro r hr hp
      have hrin : r ∈ List.range d.n_rows := List.mem_range.mpr hr
      rw [hsplit] at hrin
      rcases List.mem_append.mp hrin with h | h
      · exact h
      · rcases List.mem_cons.mp h with h | h
        · subst h
          exact absurd hp hbad
        · have hk₀r : k₀ < r := hks₂ r h
          have hmul : k₀ * d.n_cols ≤ r * d.n_cols :=
            Nat.mul_le_mul_right d.n_cols (by omega)
          exact absurd hp (by omega)
    have herr : BitBoard.set_col dynOps d c v =
        Except.error (dynOps.withBoard d
          (setIdxsList d.board (ks₁.map (fun k => k * d.n_cols + c)) v)) := by
      unfold BitBoard.set_col
      rw [dyn_n_rows, hsplit]
      rw [BitBoard.setLoop_err dynOps dynLawful d.n_cols
        (fun k => k * d.n_cols + c) _ v
        (fun b' k hk => by
          show k * dynOps.n_cols b' + c = k * d.n_cols + c
          rw [hk])
        ks₁ k₀ ks₂ d rfl
        (by
          intro k hk
          rw [dyn_board, hlen]
          exact hgood k hk)
        (by rw [dyn_board, hlen]; exact hbad)]
      rw [dyn_board]
    rw [dyn_withBoard] at herr
    refine ⟨_, herr, rfl, rfl, ?_⟩
    intro i
    show (setIdxsList d.board (ks₁.map (fun k => k * d.n_cols + c)) v).getD i false
      = _
    rw [getD_setIdxsList]
    by_cases hcond : ∃ r, r < d.n_rows ∧ r * d.n_cols + c = i ∧
        i < d.n_rows * d.n_cols
    · obtain ⟨r, hr, hri, hilt⟩ := hcond
      rw [if_pos ⟨List.mem_map.mpr ⟨r, hmem r hr (by omega), hri⟩, by omega⟩,
        if_pos ⟨r, hr, hri, hilt⟩]
    · rw [if_neg (by
          rintro ⟨hm, -⟩
          obtain ⟨k, hk, hki⟩ := List.mem_map.mp hm
          have hkin : k ∈ List.range d.n_rows := by
            rw [hsplit]
            exact List.mem_append.mpr (Or.inl hk)
          refine hcond ⟨k, List.mem_range.mp hkin, hki, ?_⟩
          have := hgood k hk
          omega),
        if_neg hcond]

theorem c10_set_col_witness :
    ∃ b', BitBoard.set_col dynOps ⟨[false, false, false, false], 2, 2⟩ 2 true
        = Except.error b' ∧
      b'.n_rows = 2 ∧ b'.n_cols = 2 ∧
      ∀ i, b'.board.getD i false =
        (if ∃ r, r < (⟨[false, false, false, false], 2, 2⟩ : BitBoardDyn).n_rows ∧
              r * (⟨[false, false, false, false], 2, 2⟩ : BitBoardDyn).n_cols + 2
                = i ∧
              i < (⟨[false, false, false, false], 2, 2⟩ : BitBoardDyn).n_rows *
                  (⟨[false, false, false, false], 2, 2⟩ : BitBoardDyn).n_cols
         then true
         else ([false, false, false, false] : List Bool).getD i false) :=
  c10_set_col_no_validation.2.1 ⟨[false, false, false, false], 2, 2⟩ 2 true
    (by decide) (by decide) (by decide) (by decide)

/-- C5: for every shape fitting the fixed capacity and every sequence of
    interface operations with in-range arguments (`fill`, `set`, `set_row`,
    `set_col`, the three neighbor operations, `and`, `or` — operands of the
    binary operations built by interface programs from a fresh same-shaped
    board), running the sequence from `BitBoardDyn::new` and from
    `BitBoardStatic::new` succeeds on both backends and yields boards whose
    logical bit agrees at every `(row, col)` within the shape. -/
theorem c5_backend_refinement (W nr nc : Nat) (prog : List Op)
    (hcap : nr * nc ≤ W * usizeBits) (hv : Prog.valid nr nc prog = true) :
    ∃ (s₀ : BitBoardStatic W) (d : BitBoardDyn) (s : BitBoardStatic W),
      BitBoardStatic.new W nr nc = some s₀ ∧
      runDyn (BitBoardDyn.new nr nc) prog = some d ∧
      runStat s₀ prog = some s ∧
      d.n_rows = nr ∧ d.n_cols = nc ∧ s.n_rows = nr ∧ s.n_cols = nc ∧
      ∀ r c, r < nr → c < nc →
        d.board.getD (r * nc + c) false = s.board.getD (r * nc + c) false := by
  obtain ⟨d, s, hrd, hrs, hsim⟩ :=
    simRun prog (BitBoardDyn.new nr nc) _ (sim_new W nr nc hcap) hv
  refine ⟨_, d, s, static_new_eq W nr nc hcap, hrd, hrs, hsim.1, hsim.2.1,
    hsim.2.2.1, hsim.2.2.2.1, ?_⟩
  intro r c hr hc
  exact hsim.2.2.2.2.2.2.2 _ (rc_lt hr hc)

theorem c5_refinement_witness :
    Prog.valid 2 2 [Op.set 0 1 true, Op.set_row 0 true,
      Op.set_cardinal_neighbors 1 0 true, Op.or_with [Op.set 1 1 true],
      Op.and_with [Op.fill true], Op.set_col 1 false,
      Op.set_diagonals 0 0 true, Op.set_all_neighbors 1 1 false] = true ∧
    (∃ (s₀ : BitBoardStatic 1) (d : BitBoardDyn) (s : BitBoardStatic 1),
      BitBoardStatic.new 1 2 2 = some s₀ ∧
      runDyn (BitBoardDyn.new 2 2) [Op.set 0 1 true, Op.set_row 0 true,
        Op.set_cardinal_neighbors 1 0 true, Op.or_with [Op.set 1 1 true],
        Op.and_with [Op.fill true], Op.set_col 1 false,
        Op.set_diagonals 0 0 true, Op.set_all_neighbors 1 1 false] = some d ∧
      runStat s₀ [Op.set 0 1 true, Op.set_row 0 true,
        Op.set_cardinal_neighbors 1 0 true, Op.or_with [Op.set 1 1 true],
        Op.and_with [Op.fill true], Op.set_col 1 false,
        Op.set_diagonals 0 0 true, Op.set_all_neighbors 1 1 false] = some s ∧
      d.n_rows = 2 ∧ d.n_cols = 2 ∧ s.n_rows = 2 ∧ s.n_cols = 2 ∧
      ∀ r c, r < 2 → c < 2 →
        d.board.getD (r * 2 + c) false = s.board.getD (r * 2 + c) false) :=
  ⟨by simp [Prog.valid, Op.valid],
    c5_backend_refinement 1 2 2 _ (by decide) (by simp [Prog.valid, Op.valid])⟩

/-- C6 (amended): `fill` writes the entire backing capacity — `fill(true)`
    sets the slack bits (see the counterexample) — but apart from that, no
    valid interface operation ever addresses the capacity beyond the logical
    `n_rows * n_cols` bits: starting from `new`, any valid operation sequence
    containing no `fill(true)` leaves every bit at index ≥ `n_rows * n_cols`
    equal to `false`. -/
theorem c6_slack_bits_stay_false (W nr nc : Nat) (prog : List Op)
    (s₀ : BitBoardStatic W) (hnew : BitBoardStatic.new W nr nc = some s₀)
    (hv : Prog.valid nr nc prog = true) (hnf : Prog.noFillTrue prog = true) :
    ∃ s, runStat s₀ prog = some s ∧
      ∀ i, nr * nc ≤ i → s.board.getD i false = false := by
  have hcap : nr * nc ≤ W * usizeBits := by
    by_contra h
    unfold BitBoardStatic.new at hnew
    rw [if_neg h] at hnew
    exact Option.noConfusion hnew
  have hs₀ : s₀ = ⟨List.replicate (W * usizeBits) false, nr, nc⟩ := by
    rw [static_new_eq W nr nc hcap] at hnew
    exact (Option.some.inj hnew).symm
  subst hs₀
  obtain ⟨d, s, hrd, hrs, hsim⟩ :=
    simRun prog (BitBoardDyn.new nr nc) _ (sim_new W nr nc hcap) hv
  have hslacks := slackRun prog _ s (slack_new W nr nc hcap) hv hnf hrs
  exact ⟨s, hrs, hslacks.2.2.2.2⟩

theorem c6_slack_witness :
    ∃ s, runStat (⟨List.replicate 64 false, 2, 2⟩ : BitBoardStatic 1)
        [Op.set 0 0 true, Op.fill false, Op.or_with [Op.set_row 0 true],
          Op.set_col 1 true] = some s ∧
      ∀ i, 2 * 2 ≤ i → s.board.getD i false = false :=
  c6_slack_bits_stay_false 1 2 2 _ _ (by decide)
    (by simp [Prog.valid, Op.valid]) (by simp [Prog.noFillTrue, Op.noFillTrue])

/-- C6, counterexample: the public interface operation `fill(true)` does write
    the capacity bits beyond the logical `n_rows * n_cols` prefix: on the 1×1
    one-word board produced by `new`, it turns the slack bit at index 1 (≥ 1·1)
    `true`. -/
theorem c6_slack_counterexample :
    BitBoardStatic.new 1 1 1 = some ⟨List.replicate 64 false, 1, 1⟩ ∧
    (BitBoard.fill (staticOps 1) ⟨List.replicate 64 false, 1, 1⟩ true).board.getD
      1 false = true := by
  constructor
  · decide
  · decide
